import Mathlib

/- Verification development for the NetSim routing simulator.
   Shallow embedding of src/netsim/simulation.py, src/netsim/router.py,
   src/dv.py and src/ls.py.  Addresses are opaque identifiers, modeled as
   natural numbers; link costs are real valued in the source (Euclidean
   distances) and are modeled as rationals. -/

namespace NetSim

abbrev Addr := Nat

abbrev Cost := ℚ

/-- Association lists model Python dicts (insertion ordered, unique keys). -/
def alookup {β : Type} (k : Addr) : List (Addr × β) → Option β
  | [] => none
  | (k2, v) :: rest => if k2 = k then some v else alookup k rest

/-- Model of a Python dict assignment: replace in place, or append. -/
def aupsert {β : Type} (k : Addr) (v : β) : List (Addr × β) → List (Addr × β)
  | [] => [(k, v)]
  | (k2, w) :: rest => if k2 = k then (k2, v) :: rest else (k2, w) :: aupsert k v rest

/-- Model of a Python dict deletion or pop. -/
def aerase {β : Type} (k : Addr) : List (Addr × β) → List (Addr × β)
  | [] => []
  | (k2, w) :: rest => if k2 = k then rest else (k2, w) :: aerase k rest

/-- A dict has no duplicate keys. -/
def NodupKeys {β : Type} (l : List (Addr × β)) : Prop := (l.map Prod.fst).Nodup

theorem alookup_nil {β : Type} (k : Addr) : alookup (β := β) k [] = none := rfl

theorem alookup_cons_self {β : Type} (k : Addr) (v : β) (tl : List (Addr × β)) :
    alookup k ((k, v) :: tl) = some v := by simp [alookup]

theorem alookup_cons_ne {β : Type} {k k2 : Addr} (v : β) (tl : List (Addr × β))
    (h : k2 ≠ k) : alookup k ((k2, v) :: tl) = alookup k tl := by simp [alookup, h]

theorem aupsert_nil {β : Type} (k : Addr) (v : β) : aupsert k v [] = [(k, v)] := rfl

theorem aupsert_cons_self {β : Type} (k : Addr) (v w : β) (tl : List (Addr × β)) :
    aupsert k v ((k, w) :: tl) = (k, v) :: tl := by simp [aupsert]

theorem aupsert_cons_ne {β : Type} {k k2 : Addr} (v w : β) (tl : List (Addr × β))
    (h : k2 ≠ k) : aupsert k v ((k2, w) :: tl) = (k2, w) :: aupsert k v tl := by
  simp [aupsert, h]

theorem aerase_cons_self {β : Type} (k : Addr) (w : β) (tl : List (Addr × β)) :
    aerase k ((k, w) :: tl) = tl := by simp [aerase]

theorem aerase_cons_ne {β : Type} {k k2 : Addr} (w : β) (tl : List (Addr × β))
    (h : k2 ≠ k) : aerase k ((k2, w) :: tl) = (k2, w) :: aerase k tl := by
  simp [aerase, h]

theorem alookup_aupsert_self {β : Type} (k : Addr) (v : β) (l : List (Addr × β)) :
    alookup k (aupsert k v l) = some v := by
  induction l with
  | nil => rw [aupsert_nil, alookup_cons_self]
  | cons hd tl ih =>
      obtain ⟨k2, w⟩ := hd
      by_cases h : k2 = k
      · subst h
        rw [aupsert_cons_self, alookup_cons_self]
      · rw [aupsert_cons_ne _ _ _ h, alookup_cons_ne _ _ h, ih]

theorem alookup_aupsert_ne {β : Type} {k k2 : Addr} (v : β) (l : List (Addr × β))
    (h : k2 ≠ k) : alookup k2 (aupsert k v l) = alookup k2 l := by
  induction l with
  | nil => rw [aupsert_nil, alookup_cons_ne _ _ (Ne.symm h), alookup_nil]
  | cons hd tl ih =>
      obtain ⟨k3, w⟩ := hd
      by_cases h3 : k3 = k
      · subst h3
        rw [aupsert_cons_self, alookup_cons_ne _ _ (Ne.symm h),
          alookup_cons_ne _ _ (Ne.symm h)]
      · by_cases h32 : k3 = k2
        · subst h32
          rw [aupsert_cons_ne _ _ _ h3, alookup_cons_self, alookup_cons_self]
        · rw [aupsert_cons_ne _ _ _ h3, alookup_cons_ne _ _ h32,
            alookup_cons_ne _ _ h32, ih]

theorem alookup_aerase_ne {β : Type} {k k2 : Addr} (l : List (Addr × β))
    (h : k2 ≠ k) : alookup k2 (aerase k l) = alookup k2 l := by
  induction l with
  | nil => rfl
  | cons hd tl ih =>
      obtain ⟨k3, w⟩ := hd
      by_cases h3 : k3 = k
      · subst h3
        rw [aerase_cons_self, alookup_cons_ne _ _ (Ne.symm h)]
      · by_cases h32 : k3 = k2
        · subst h32
          rw [aerase_cons_ne _ _ h3, alookup_cons_self, alookup_cons_self]
        · rw [aerase_cons_ne _ _ h3, alookup_cons_ne _ _ h32,
            alookup_cons_ne _ _ h32, ih]

theorem alookup_eq_none_of_not_mem_keys {β : Type} {k : Addr} {l : List (Addr × β)}
    (h : k ∉ l.map Prod.fst) : alookup k l = none := by
  induction l with
  | nil => rfl
  | cons hd tl ih =>
      obtain ⟨k2, w⟩ := hd
      simp only [List.map_cons, List.mem_cons, not_or] at h
      rw [alookup_cons_ne _ _ (Ne.symm h.1), ih h.2]

theorem mem_of_mem_aerase {β : Type} {k : Addr} {l : List (Addr × β)} {m : Addr × β}
    (hm : m ∈ aerase k l) : m ∈ l := by
  induction l with
  | nil => exact absurd hm (by simp [aerase])
  | cons hd tl ih =>
      obtain ⟨k2, w⟩ := hd
      by_cases h2 : k2 = k
      · subst h2
        rw [aerase_cons_self] at hm
        exact List.mem_cons_of_mem _ hm
      · rw [aerase_cons_ne _ _ h2] at hm
        rcases List.mem_cons.mp hm with hm | hm
        · exact hm ▸ List.mem_cons_self _ _
        · exact List.mem_cons_of_mem _ (ih hm)

theorem key_ne_of_mem_aerase {β : Type} {k : Addr} {l : List (Addr × β)} {m : Addr × β}
    (h : NodupKeys l) (hm : m ∈ aerase k l) : m.1 ≠ k := by
  induction l with
  | nil => exact absurd hm (by simp [aerase])
  | cons hd tl ih =>
      obtain ⟨k2, w⟩ := hd
      simp only [NodupKeys, List.map_cons, List.nodup_cons] at h
      by_cases h2 : k2 = k
      · subst h2
        rw [aerase_cons_self] at hm
        intro he
        exact h.1 (he ▸ List.mem_map_of_mem Prod.fst hm)
      · rw [aerase_cons_ne _ _ h2] at hm
        rcases List.mem_cons.mp hm with hm | hm
        · subst hm
          exact h2
        · exact ih h.2 hm

theorem alookup_aerase_self {β : Type} {k : Addr} {l : List (Addr × β)}
    (h : NodupKeys l) : alookup k (aerase k l) = none := by
  apply alookup_eq_none_of_not_mem_keys
  intro hmem
  obtain ⟨m, hm, hmk⟩ := List.mem_map.mp hmem
  exact key_ne_of_mem_aerase h hm hmk

theorem mem_keys_of_mem_aupsert {β : Type} {k : Addr} {v : β} {l : List (Addr × β)}
    {m : Addr × β} (hm : m ∈ aupsert k v l) : m.1 = k ∨ m.1 ∈ l.map Prod.fst := by
  induction l with
  | nil =>
      rw [aupsert_nil, List.mem_singleton] at hm
      subst hm
      simp
  | cons hd tl ih =>
      obtain ⟨k2, w⟩ := hd
      by_cases h2 : k2 = k
      · subst h2
        rw [aupsert_cons_self] at hm
        rcases List.mem_cons.mp hm with hm | hm
        · subst hm; simp
        · right
          simp only [List.map_cons, List.mem_cons]
          exact Or.inr (List.mem_map_of_mem Prod.fst hm)
      · rw [aupsert_cons_ne _ _ _ h2] at hm
        rcases List.mem_cons.mp hm with hm | hm
        · subst hm; simp
        · rcases ih hm with h3 | h3
          · exact Or.inl h3
          · right
            simp only [List.map_cons, List.mem_cons]
            exact Or.inr h3

theorem nodupKeys_aupsert {β : Type} {k : Addr} {v : β} {l : List (Addr × β)}
    (h : NodupKeys l) : NodupKeys (aupsert k v l) := by
  induction l with
  | nil => simp [aupsert, NodupKeys]
  | cons hd tl ih =>
      obtain ⟨k2, w⟩ := hd
      simp only [NodupKeys, List.map_cons, List.nodup_cons] at h
      by_cases h2 : k2 = k
      · subst h2
        rw [aupsert_cons_self]
        simp only [NodupKeys, List.map_cons, List.nodup_cons]
        exact h
      · have htl := ih h.2
        rw [aupsert_cons_ne _ _ _ h2]
        simp only [NodupKeys, List.map_cons, List.nodup_cons]
        refine ⟨?_, htl⟩
        intro hmem
        obtain ⟨m, hm, hmk⟩ := List.mem_map.mp hmem
        rcases mem_keys_of_mem_aupsert hm with h3 | h3
        · exact h2 (by rw [← hmk, h3])
        · exact h.1 (hmk ▸ h3)

theorem nodupKeys_aerase {β : Type} {k : Addr} {l : List (Addr × β)}
    (h : NodupKeys l) : NodupKeys (aerase k l) := by
  induction l with
  | nil => exact h
  | cons hd tl ih =>
      obtain ⟨k2, w⟩ := hd
      simp only [NodupKeys, List.map_cons, List.nodup_cons] at h
      by_cases h2 : k2 = k
      · subst h2
        rw [aerase_cons_self]
        exact h.2
      · have htl := ih h.2
        rw [aerase_cons_ne _ _ h2]
        simp only [NodupKeys, List.map_cons, List.nodup_cons]
        refine ⟨?_, htl⟩
        intro hmem
        obtain ⟨m, hm, hmk⟩ := List.mem_map.mp hmem
        exact h.1 (hmk ▸ List.mem_map_of_mem Prod.fst (mem_of_mem_aerase hm))

end NetSim

namespace NetSim

/-- Packets carried on link queues are identified by opaque ids. -/
abbrev PacketId := Nat

/-- Model of class Link in src/netsim/simulation.py.  The queue q12 is the
    one that send appends to when called by end1, and that receive pops when
    called by end2; symmetrically q21 carries traffic from end2 to end1.
    Python compares node objects by identity; nodes are modeled by their
    (unique) addresses. -/
structure Link where
  end1 : Addr
  end2 : Addr
  q12 : List PacketId
  q21 : List PacketId
  cost : Cost
  broken : Bool
deriving DecidableEq, Repr

namespace Link

/-- Link.queue_length from src/netsim/simulation.py lines 160 to 166.
    A result of none models the raised exception (raised before any
    mutation, so the queues stay unchanged). -/
def queue_length (l : Link) (n : Addr) : Option Nat :=
  if n = l.end1 then some l.q12.length
  else if n = l.end2 then some l.q21.length
  else none

/-- Link.receive from src/netsim/simulation.py lines 168 to 174: pop the
    oldest packet queued toward node n, none inside models an empty queue,
    an outer none models the raised exception. -/
def receive (l : Link) (n : Addr) : Option (Link × Option PacketId) :=
  if n = l.end1 then
    match l.q21 with
    | [] => some (l, none)
    | p :: rest => some ({ l with q21 := rest }, some p)
  else if n = l.end2 then
    match l.q12 with
    | [] => some (l, none)
    | p :: rest => some ({ l with q12 := rest }, some p)
  else none

/-- Link.send from src/netsim/simulation.py lines 176 to 184: a broken link
    silently drops the packet before the endpoint check; otherwise append to
    the queue directed away from n, raising (modeled as none) when n is not
    an endpoint. -/
def send (l : Link) (n : Addr) (p : PacketId) : Option Link :=
  if l.broken then some l
  else if n = l.end1 then some { l with q12 := l.q12 ++ [p] }
  else if n = l.end2 then some { l with q21 := l.q21 ++ [p] }
  else none

end Link

/-- Values stored in the routes dict: the sentinel Self for the router
    itself, an outgoing Link, or the explicit None the link-state router
    stores for unreachable destinations. -/
inductive RouteEntry where
  | selfR : RouteEntry
  | lnk : Link → RouteEntry
  | null : RouteEntry
deriving DecidableEq, Repr

namespace DV

/-- DVRouter.INFINITY from src/dv.py line 8. -/
def INFINITY : Cost := 32

/-- Routing state of a DVRouter: self.address, self.routes and self.spcost. -/
structure DVRouter where
  address : Addr
  routes : List (Addr × RouteEntry)
  spcost : List (Addr × Cost)
deriving DecidableEq, Repr

/-- The candidate cost computed at src/dv.py lines 67 to 70: the sum of the
    link cost and the advertised cost, clamped at INFINITY. -/
def newCostOf (linkCost advCost : Cost) : Cost :=
  if INFINITY ≤ linkCost + advCost then INFINITY else linkCost + advCost

/-- Body of the for loop of DVRouter.integrate (src/dv.py lines 62 to 89)
    for a single advertisement entry, threading the changed flag. -/
def integrateStep (link : Link) (acc : DVRouter × Bool) (entry : Addr × Cost) :
    DVRouter × Bool :=
  let r := acc.1
  let changed := acc.2
  let dest := entry.1
  if dest = r.address then (r, changed)
  else
    let newCost := newCostOf link.cost entry.2
    let currentCost := (alookup dest r.spcost).getD INFINITY
    if alookup dest r.routes = some (RouteEntry.lnk link) then
      if newCost ≠ currentCost then
        if newCost = INFINITY then
          ({ r with spcost := aerase dest r.spcost, routes := aerase dest r.routes },
           true)
        else
          ({ r with spcost := aupsert dest newCost r.spcost }, true)
      else (r, changed)
    else if newCost < currentCost then
      ({ r with spcost := aupsert dest newCost r.spcost,
                routes := aupsert dest (RouteEntry.lnk link) r.routes }, true)
    else (r, changed)

/-- DVRouter.integrate from src/dv.py lines 42 to 91: fold the step over the
    advertisement entries, returning the updated router and the changed flag. -/
def integrate (r : DVRouter) (link : Link) (adv : List (Addr × Cost)) :
    DVRouter × Bool :=
  adv.foldl (integrateStep link) (r, false)

/-- Router.clear_routes from src/netsim/router.py lines 82 to 87: delete
    every destination routed through the given link from both dicts. -/
def clear_routes (r : DVRouter) (link : Link) : DVRouter :=
  let clearList := (r.routes.filter (fun e => e.2 = RouteEntry.lnk link)).map Prod.fst
  clearList.foldl
    (fun r2 dest =>
      { r2 with routes := aerase dest r2.routes, spcost := aerase dest r2.spcost }) r

/-- Freshly initialized router state from Router.__init__ and Router.reset
    in src/netsim/router.py. -/
def fresh (a : Addr) : DVRouter :=
  { address := a, routes := [(a, RouteEntry.selfR)], spcost := [(a, 0)] }

end DV

end NetSim

namespace NetSim

namespace DV

theorem mem_aupsert {β : Type} {k : Addr} {v : β} {l : List (Addr × β)} {m : Addr × β}
    (hm : m ∈ aupsert k v l) : m = (k, v) ∨ m ∈ l := by
  induction l with
  | nil =>
      rw [aupsert_nil, List.mem_singleton] at hm
      exact Or.inl hm
  | cons hd tl ih =>
      obtain ⟨k2, w⟩ := hd
      by_cases h2 : k2 = k
      · subst h2
        rw [aupsert_cons_self] at hm
        rcases List.mem_cons.mp hm with hm | hm
        · exact Or.inl hm
        · exact Or.inr (List.mem_cons_of_mem _ hm)
      · rw [aupsert_cons_ne _ _ _ h2] at hm
        rcases List.mem_cons.mp hm with hm | hm
        · exact Or.inr (hm ▸ List.mem_cons_self _ _)
        · rcases ih hm with h3 | h3
          · exact Or.inl h3
          · exact Or.inr (List.mem_cons_of_mem _ h3)

theorem newCostOf_le (lc c : Cost) : newCostOf lc c ≤ INFINITY := by
  unfold newCostOf
  split
  · exact le_refl _
  · exact le_of_lt (lt_of_not_le (by assumption))

theorem newCostOf_eq_min (lc c : Cost) : newCostOf lc c = min (lc + c) INFINITY := by
  unfold newCostOf
  rcases le_total INFINITY (lc + c) with h | h
  · rw [if_pos h, min_eq_right h]
  · rcases eq_or_lt_of_le h with h2 | h2
    · rw [h2]
      simp
    · rw [if_neg (not_le.mpr h2), min_eq_left (le_of_lt h2)]

theorem integrateStep_skip {link : Link} {acc : DVRouter × Bool} {e : Addr × Cost}
    (h : e.1 = acc.1.address) : integrateStep link acc e = acc := by
  simp [integrateStep, h]

theorem integrateStep_same_remove {link : Link} {acc : DVRouter × Bool} {e : Addr × Cost}
    (h1 : e.1 ≠ acc.1.address)
    (h2 : alookup e.1 acc.1.routes = some (RouteEntry.lnk link))
    (h4 : newCostOf link.cost e.2 ≠ (alookup e.1 acc.1.spcost).getD INFINITY)
    (h3 : newCostOf link.cost e.2 = INFINITY) :
    integrateStep link acc e =
      ({ acc.1 with spcost := aerase e.1 acc.1.spcost,
                    routes := aerase e.1 acc.1.routes }, true) := by
  have h4b : INFINITY ≠ (alookup e.1 acc.1.spcost).getD INFINITY := h3 ▸ h4
  simp [integrateStep, h1, h2, h4, h3, h4b]

theorem integrateStep_same_update {link : Link} {acc : DVRouter × Bool} {e : Addr × Cost}
    (h1 : e.1 ≠ acc.1.address)
    (h2 : alookup e.1 acc.1.routes = some (RouteEntry.lnk link))
    (h4 : newCostOf link.cost e.2 ≠ (alookup e.1 acc.1.spcost).getD INFINITY)
    (h3 : newCostOf link.cost e.2 ≠ INFINITY) :
    integrateStep link acc e =
      ({ acc.1 with spcost := aupsert e.1 (newCostOf link.cost e.2) acc.1.spcost },
       true) := by
  simp [integrateStep, h1, h2, h4, h3]

theorem integrateStep_same_nochange {link : Link} {acc : DVRouter × Bool} {e : Addr × Cost}
    (h1 : e.1 ≠ acc.1.address)
    (h2 : alookup e.1 acc.1.routes = some (RouteEntry.lnk link))
    (h4 : newCostOf link.cost e.2 = (alookup e.1 acc.1.spcost).getD INFINITY) :
    integrateStep link acc e = acc := by
  simp [integrateStep, h1, h2, h4]

theorem integrateStep_better {link : Link} {acc : DVRouter × Bool} {e : Addr × Cost}
    (h1 : e.1 ≠ acc.1.address)
    (h2 : alookup e.1 acc.1.routes ≠ some (RouteEntry.lnk link))
    (h5 : newCostOf link.cost e.2 < (alookup e.1 acc.1.spcost).getD INFINITY) :
    integrateStep link acc e =
      ({ acc.1 with spcost := aupsert e.1 (newCostOf link.cost e.2) acc.1.spcost,
                    routes := aupsert e.1 (RouteEntry.lnk link) acc.1.routes },
       true) := by
  simp [integrateStep, h1, h2, h5]

theorem integrateStep_nobetter {link : Link} {acc : DVRouter × Bool} {e : Addr × Cost}
    (h1 : e.1 ≠ acc.1.address)
    (h2 : alookup e.1 acc.1.routes ≠ some (RouteEntry.lnk link))
    (h5 : ¬ newCostOf link.cost e.2 < (alookup e.1 acc.1.spcost).getD INFINITY) :
    integrateStep link acc e = acc := by
  simp [integrateStep, h1, h2, h5]

end DV

end NetSim

namespace NetSim

namespace DV

theorem integrateStep_shape (link : Link) (acc : DVRouter × Bool) (e : Addr × Cost) :
    integrateStep link acc e = acc ∨
    (e.1 ≠ acc.1.address ∧
      (integrateStep link acc e =
         ({ acc.1 with spcost := aerase e.1 acc.1.spcost,
                       routes := aerase e.1 acc.1.routes }, true) ∨
       integrateStep link acc e =
         ({ acc.1 with spcost := aupsert e.1 (newCostOf link.cost e.2) acc.1.spcost },
          true) ∨
       integrateStep link acc e =
         ({ acc.1 with spcost := aupsert e.1 (newCostOf link.cost e.2) acc.1.spcost,
                       routes := aupsert e.1 (RouteEntry.lnk link) acc.1.routes },
          true))) := by
  by_cases h1 : e.1 = acc.1.address
  · exact Or.inl (integrateStep_skip h1)
  · by_cases h2 : alookup e.1 acc.1.routes = some (RouteEntry.lnk link)
    · by_cases h4 : newCostOf link.cost e.2 = (alookup e.1 acc.1.spcost).getD INFINITY
      · exact Or.inl (integrateStep_same_nochange h1 h2 h4)
      · by_cases h3 : newCostOf link.cost e.2 = INFINITY
        · exact Or.inr ⟨h1, Or.inl (integrateStep_same_remove h1 h2 h4 h3)⟩
        · exact Or.inr ⟨h1, Or.inr (Or.inl (integrateStep_same_update h1 h2 h4 h3))⟩
    · by_cases h5 : newCostOf link.cost e.2 < (alookup e.1 acc.1.spcost).getD INFINITY
      · exact Or.inr ⟨h1, Or.inr (Or.inr (integrateStep_better h1 h2 h5))⟩
      · exact Or.inl (integrateStep_nobetter h1 h2 h5)

theorem integrateStep_address (link : Link) (acc : DVRouter × Bool) (e : Addr × Cost) :
    (integrateStep link acc e).1.address = acc.1.address := by
  rcases integrateStep_shape link acc e with h | ⟨_, h | h | h⟩ <;> rw [h]

theorem integrateStep_lookup_ne (link : Link) (acc : DVRouter × Bool) (e : Addr × Cost)
    {d : Addr} (hne : e.1 ≠ d) :
    alookup d (integrateStep link acc e).1.routes = alookup d acc.1.routes ∧
    alookup d (integrateStep link acc e).1.spcost = alookup d acc.1.spcost := by
  have hd : d ≠ e.1 := Ne.symm hne
  rcases integrateStep_shape link acc e with h | ⟨_, h | h | h⟩ <;> rw [h]
  · exact ⟨rfl, rfl⟩
  · exact ⟨alookup_aerase_ne _ hd, alookup_aerase_ne _ hd⟩
  · exact ⟨rfl, alookup_aupsert_ne _ _ hd⟩
  · exact ⟨alookup_aupsert_ne _ _ hd, alookup_aupsert_ne _ _ hd⟩

theorem integrateStep_nodup (link : Link) (acc : DVRouter × Bool) (e : Addr × Cost)
    (hr : NodupKeys acc.1.routes) (hs : NodupKeys acc.1.spcost) :
    NodupKeys (integrateStep link acc e).1.routes ∧
    NodupKeys (integrateStep link acc e).1.spcost := by
  rcases integrateStep_shape link acc e with h | ⟨_, h | h | h⟩ <;> rw [h]
  · exact ⟨hr, hs⟩
  · exact ⟨nodupKeys_aerase hr, nodupKeys_aerase hs⟩
  · exact ⟨hr, nodupKeys_aupsert hs⟩
  · exact ⟨nodupKeys_aupsert hr, nodupKeys_aupsert hs⟩

theorem integrateStep_bound (link : Link) (acc : DVRouter × Bool) (e : Addr × Cost)
    (hb : ∀ p ∈ acc.1.spcost, p.2 ≤ INFINITY) :
    ∀ p ∈ (integrateStep link acc e).1.spcost, p.2 ≤ INFINITY := by
  rcases integrateStep_shape link acc e with h | ⟨_, h | h | h⟩ <;> rw [h]
  · exact hb
  · exact fun p hp => hb p (mem_of_mem_aerase hp)
  · intro p hp
    rcases mem_aupsert hp with hp | hp
    · rw [hp]
      exact newCostOf_le _ _
    · exact hb p hp
  · intro p hp
    rcases mem_aupsert hp with hp | hp
    · rw [hp]
      exact newCostOf_le _ _
    · exact hb p hp

theorem integrate_foldl_address (link : Link) (adv : List (Addr × Cost)) :
    ∀ acc : DVRouter × Bool,
      (adv.foldl (integrateStep link) acc).1.address = acc.1.address := by
  induction adv with
  | nil => intro acc; rfl
  | cons e rest ih =>
      intro acc
      rw [List.foldl_cons, ih, integrateStep_address]

theorem integrate_foldl_lookup_ne (link : Link) (adv : List (Addr × Cost)) {d : Addr}
    (h : ∀ e ∈ adv, e.1 ≠ d) :
    ∀ acc : DVRouter × Bool,
      alookup d (adv.foldl (integrateStep link) acc).1.routes =
        alookup d acc.1.routes ∧
      alookup d (adv.foldl (integrateStep link) acc).1.spcost =
        alookup d acc.1.spcost := by
  induction adv with
  | nil => intro acc; exact ⟨rfl, rfl⟩
  | cons e rest ih =>
      intro acc
      rw [List.foldl_cons]
      have he := h e (List.mem_cons_self _ _)
      have hrest := ih (fun e2 he2 => h e2 (List.mem_cons_of_mem _ he2))
        (integrateStep link acc e)
      have hstep := integrateStep_lookup_ne link acc e he
      exact ⟨hrest.1.trans hstep.1, hrest.2.trans hstep.2⟩

theorem integrate_foldl_nodup (link : Link) (adv : List (Addr × Cost)) :
    ∀ acc : DVRouter × Bool, NodupKeys acc.1.routes → NodupKeys acc.1.spcost →
      NodupKeys (adv.foldl (integrateStep link) acc).1.routes ∧
      NodupKeys (adv.foldl (integrateStep link) acc).1.spcost := by
  induction adv with
  | nil => intro acc hr hs; exact ⟨hr, hs⟩
  | cons e rest ih =>
      intro acc hr hs
      rw [List.foldl_cons]
      have hstep := integrateStep_nodup link acc e hr hs
      exact ih _ hstep.1 hstep.2

theorem integrate_foldl_bound (link : Link) (adv : List (Addr × Cost)) :
    ∀ acc : DVRouter × Bool, (∀ p ∈ acc.1.spcost, p.2 ≤ INFINITY) →
      ∀ p ∈ (adv.foldl (integrateStep link) acc).1.spcost, p.2 ≤ INFINITY := by
  induction adv with
  | nil => intro acc hb; exact hb
  | cons e rest ih =>
      intro acc hb
      rw [List.foldl_cons]
      exact ih _ (integrateStep_bound link acc e hb)

end DV

end NetSim

namespace NetSim

namespace DV

/-- Wellformedness of reachable DVRouter states: dict keys are unique,
    stored costs stay below INFINITY, and a destination has a usable
    routes entry exactly when it has a spcost entry. -/
def wf (r : DVRouter) : Prop :=
  NodupKeys r.routes ∧ NodupKeys r.spcost ∧
  (∀ d q, alookup d r.spcost = some q → q < INFINITY) ∧
  (∀ d, (∃ e, alookup d r.routes = some e ∧ e ≠ RouteEntry.null) ↔
        (alookup d r.spcost).isSome)

theorem wf_fresh (a : Addr) : wf (fresh a) := by
  refine ⟨by simp [fresh, NodupKeys], by simp [fresh, NodupKeys], ?_, ?_⟩
  · intro d q h
    by_cases hda : a = d
    · subst hda
      rw [show (fresh a).spcost = [(a, 0)] from rfl, alookup_cons_self] at h
      cases h
      norm_num [INFINITY]
    · rw [show (fresh a).spcost = [(a, 0)] from rfl, alookup_cons_ne _ _ hda] at h
      cases h
  · intro d
    by_cases hda : a = d
    · subst hda
      constructor
      · intro _
        rw [show (fresh a).spcost = [(a, 0)] from rfl, alookup_cons_self]
        rfl
      · intro _
        exact ⟨RouteEntry.selfR,
          by rw [show (fresh a).routes = [(a, RouteEntry.selfR)] from rfl,
               alookup_cons_self], by intro h; cases h⟩
    · constructor
      · rintro ⟨e, he, -⟩
        rw [show (fresh a).routes = [(a, RouteEntry.selfR)] from rfl,
          alookup_cons_ne _ _ hda, alookup_nil] at he
        cases he
      · intro h
        rw [show (fresh a).spcost = [(a, 0)] from rfl,
          alookup_cons_ne _ _ hda, alookup_nil] at h
        cases h

/-- Per destination characterization of DVRouter.integrate: because
    advertisement keys are distinct and each loop iteration touches only
    its own destination, the final entries at d are determined by the
    initial entries at d and the advertised cost for d. -/
theorem integrate_lookup_char (r : DVRouter) (link : Link) (adv : List (Addr × Cost))
    (d : Addr) (c : Cost) (hnod : NodupKeys adv) (hmem : (d, c) ∈ adv)
    (hd : d ≠ r.address) (hnr : NodupKeys r.routes) (hns : NodupKeys r.spcost) :
    (alookup d r.routes = some (RouteEntry.lnk link) →
       (newCostOf link.cost c ≠ (alookup d r.spcost).getD INFINITY →
          (newCostOf link.cost c = INFINITY →
             alookup d ((integrate r link adv).1).routes = none ∧
             alookup d ((integrate r link adv).1).spcost = none) ∧
          (newCostOf link.cost c ≠ INFINITY →
             alookup d ((integrate r link adv).1).routes = some (RouteEntry.lnk link) ∧
             alookup d ((integrate r link adv).1).spcost =
               some (newCostOf link.cost c))) ∧
       (newCostOf link.cost c = (alookup d r.spcost).getD INFINITY →
          alookup d ((integrate r link adv).1).routes = alookup d r.routes ∧
          alookup d ((integrate r link adv).1).spcost = alookup d r.spcost)) ∧
    (alookup d r.routes ≠ some (RouteEntry.lnk link) →
       (newCostOf link.cost c < (alookup d r.spcost).getD INFINITY →
          alookup d ((integrate r link adv).1).routes = some (RouteEntry.lnk link) ∧
          alookup d ((integrate r link adv).1).spcost =
            some (newCostOf link.cost c)) ∧
       (¬ newCostOf link.cost c < (alookup d r.spcost).getD INFINITY →
          alookup d ((integrate r link adv).1).routes = alookup d r.routes ∧
          alookup d ((integrate r link adv).1).spcost = alookup d r.spcost)) := by
  obtain ⟨l1, l2, rfl⟩ := List.append_of_mem hmem
  have hsplit : d ∉ l1.map Prod.fst ∧ d ∉ l2.map Prod.fst := by
    rw [NodupKeys, List.map_append, List.map_cons, List.nodup_append] at hnod
    obtain ⟨-, h2, h3⟩ := hnod
    rw [List.nodup_cons] at h2
    exact ⟨fun hm => h3 hm (List.mem_cons_self _ _), h2.1⟩
  have hne1 : ∀ e ∈ l1, e.1 ≠ d :=
    fun e he hed => hsplit.1 (hed ▸ List.mem_map_of_mem Prod.fst he)
  have hne2 : ∀ e ∈ l2, e.1 ≠ d :=
    fun e he hed => hsplit.2 (hed ▸ List.mem_map_of_mem Prod.fst he)
  have hfold :
      integrate r link (l1 ++ (d, c) :: l2) =
        l2.foldl (integrateStep link)
          (integrateStep link (l1.foldl (integrateStep link) (r, false)) (d, c)) := by
    rw [integrate, List.foldl_append, List.foldl_cons]
  set acc1 := l1.foldl (integrateStep link) (r, false) with hacc1
  have haddr : acc1.1.address = r.address := integrate_foldl_address link l1 (r, false)
  have hlook1 := integrate_foldl_lookup_ne link l1 hne1 (r, false)
  have hnod1 := integrate_foldl_nodup link l1 (r, false) hnr hns
  have hd1 : ((d, c) : Addr × Cost).1 ≠ acc1.1.address := by
    rw [haddr]; exact hd
  constructor
  · intro hroute
    have hroute1 : alookup d acc1.1.routes = some (RouteEntry.lnk link) := by
      rw [hlook1.1]; exact hroute
    constructor
    · intro hcur
      have hcur1 : newCostOf link.cost ((d, c) : Addr × Cost).2 ≠
          (alookup ((d, c) : Addr × Cost).1 acc1.1.spcost).getD INFINITY := by
        rw [hlook1.2]; exact hcur
      constructor
      · intro hinf
        have hstep := integrateStep_same_remove hd1 hroute1 hcur1 hinf
        rw [hfold, hstep]
        have hlook2 := integrate_foldl_lookup_ne link l2 hne2
          ({ acc1.1 with spcost := aerase d acc1.1.spcost,
                         routes := aerase d acc1.1.routes }, true)
        refine ⟨hlook2.1.trans ?_, hlook2.2.trans ?_⟩
        · exact alookup_aerase_self hnod1.1
        · exact alookup_aerase_self hnod1.2
      · intro hinf
        have hstep := integrateStep_same_update hd1 hroute1 hcur1 hinf
        rw [hfold, hstep]
        have hlook2 := integrate_foldl_lookup_ne link l2 hne2
          ({ acc1.1 with
              spcost := aupsert d (newCostOf link.cost c) acc1.1.spcost }, true)
        refine ⟨hlook2.1.trans ?_, hlook2.2.trans ?_⟩
        · exact hroute1
        · exact alookup_aupsert_self _ _ _
    · intro hcur
      have hcur1 : newCostOf link.cost ((d, c) : Addr × Cost).2 =
          (alookup ((d, c) : Addr × Cost).1 acc1.1.spcost).getD INFINITY := by
        rw [hlook1.2]; exact hcur
      have hstep := integrateStep_same_nochange hd1 hroute1 hcur1
      rw [hfold, hstep]
      have hlook2 := integrate_foldl_lookup_ne link l2 hne2 acc1
      exact ⟨hlook2.1.trans hlook1.1, hlook2.2.trans hlook1.2⟩
  · intro hroute
    have hroute1 : alookup d acc1.1.routes ≠ some (RouteEntry.lnk link) := by
      rw [hlook1.1]; exact hroute
    constructor
    · intro hlt
      have hlt1 : newCostOf link.cost ((d, c) : Addr × Cost).2 <
          (alookup ((d, c) : Addr × Cost).1 acc1.1.spcost).getD INFINITY := by
        rw [hlook1.2]; exact hlt
      have hstep := integrateStep_better hd1 hroute1 hlt1
      rw [hfold, hstep]
      have hlook2 := integrate_foldl_lookup_ne link l2 hne2
        ({ acc1.1 with
            spcost := aupsert d (newCostOf link.cost c) acc1.1.spcost,
            routes := aupsert d (RouteEntry.lnk link) acc1.1.routes }, true)
      refine ⟨hlook2.1.trans ?_, hlook2.2.trans ?_⟩
      · exact alookup_aupsert_self _ _ _
      · exact alookup_aupsert_self _ _ _
    · intro hlt
      have hlt1 : ¬ newCostOf link.cost ((d, c) : Addr × Cost).2 <
          (alookup ((d, c) : Addr × Cost).1 acc1.1.spcost).getD INFINITY := by
        rw [hlook1.2]; exact hlt
      have hstep := integrateStep_nobetter hd1 hroute1 hlt1
      rw [hfold, hstep]
      have hlook2 := integrate_foldl_lookup_ne link l2 hne2 acc1
      exact ⟨hlook2.1.trans hlook1.1, hlook2.2.trans hlook1.2⟩

end DV

end NetSim

namespace NetSim

namespace DV

/-- A concrete link used by witnesses and counterexamples. -/
def linkW : Link :=
  { end1 := 0, end2 := 1, q12 := [], q21 := [], cost := 1, broken := false }

/-- C1: for every call DVRouter.integrate(link, adv) and every destination d
    in adv other than the router itself, with newCost the clamped sum of the
    link cost and the advertised cost: if the current route to d uses this
    link, the stored cost is updated to newCost, and when newCost equals
    INFINITY both spcost and routes entries for d are removed; if the
    current route uses a different link or is absent, the entries are
    replaced by the link and newCost exactly when newCost is strictly below
    the currently stored cost (INFINITY when absent), and are unchanged
    otherwise. -/
theorem dv_integrate_update_rule (r : DVRouter) (link : Link)
    (adv : List (Addr × Cost)) (d : Addr) (c : Cost) (hw : wf r)
    (hnod : NodupKeys adv) (hmem : (d, c) ∈ adv) (hd : d ≠ r.address) :
    (alookup d r.routes = some (RouteEntry.lnk link) →
       (newCostOf link.cost c = INFINITY →
          alookup d ((integrate r link adv).1).routes = none ∧
          alookup d ((integrate r link adv).1).spcost = none) ∧
       (newCostOf link.cost c < INFINITY →
          alookup d ((integrate r link adv).1).routes =
            some (RouteEntry.lnk link) ∧
          alookup d ((integrate r link adv).1).spcost =
            some (newCostOf link.cost c))) ∧
    (alookup d r.routes ≠ some (RouteEntry.lnk link) →
       (newCostOf link.cost c < (alookup d r.spcost).getD INFINITY →
          alookup d ((integrate r link adv).1).routes =
            some (RouteEntry.lnk link) ∧
          alookup d ((integrate r link adv).1).spcost =
            some (newCostOf link.cost c)) ∧
       (¬ newCostOf link.cost c < (alookup d r.spcost).getD INFINITY →
          alookup d ((integrate r link adv).1).routes = alookup d r.routes ∧
          alookup d ((integrate r link adv).1).spcost = alookup d r.spcost)) := by
  obtain ⟨hnr, hns, hbound, hiff⟩ := hw
  have hchar := integrate_lookup_char r link adv d c hnod hmem hd hnr hns
  constructor
  · intro hroute
    have husable : ∃ e, alookup d r.routes = some e ∧ e ≠ RouteEntry.null :=
      ⟨RouteEntry.lnk link, hroute, by intro h; cases h⟩
    obtain ⟨q, hq⟩ := Option.isSome_iff_exists.mp ((hiff d).mp husable)
    have hqlt := hbound d q hq
    have hcurrent : (alookup d r.spcost).getD INFINITY = q := by rw [hq]; rfl
    constructor
    · intro hinf
      have hne : newCostOf link.cost c ≠ (alookup d r.spcost).getD INFINITY := by
        rw [hinf, hcurrent]
        exact ne_of_gt hqlt
      exact ((hchar.1 hroute).1 hne).1 hinf
    · intro hlt
      by_cases heq : newCostOf link.cost c = (alookup d r.spcost).getD INFINITY
      · have hres := (hchar.1 hroute).2 heq
        refine ⟨hres.1.trans hroute, hres.2.trans ?_⟩
        rw [hq, show q = newCostOf link.cost c from (heq.trans hcurrent).symm]
      · exact ((hchar.1 hroute).1 heq).2 (ne_of_lt hlt)
  · intro hroute
    exact hchar.2 hroute

/-- Witness for dv_integrate_update_rule at a concrete input. -/
theorem dv_integrate_update_rule_witness :
    alookup 1 ((integrate (fresh 0) linkW [(1, 3)]).1).routes =
      some (RouteEntry.lnk linkW) ∧
    alookup 1 ((integrate (fresh 0) linkW [(1, 3)]).1).spcost =
      some (newCostOf linkW.cost 3) := by
  have h := dv_integrate_update_rule (fresh 0) linkW [(1, 3)] 1 3 (wf_fresh 0)
    (by simp [NodupKeys]) (by simp) (by decide)
  exact (h.2 (by simp [fresh, alookup])).1
    (by norm_num [newCostOf, linkW, fresh, alookup, INFINITY])

/-- C4 counterexample: the origin of the advertisement is node 1, and its
    self entry (1, 0) is processed, not skipped: integrating installs a
    route and a cost for address 1 derived from that entry. -/
theorem dv_integrate_origin_entry_processed :
    alookup 1 ((integrate (fresh 0) linkW [(1, 0), (0, 5)]).1).routes =
      some (RouteEntry.lnk linkW) ∧
    alookup 1 ((integrate (fresh 0) linkW [(1, 0), (0, 5)]).1).spcost = some 1 := by
  norm_num [integrate, integrateStep, fresh, linkW, newCostOf, INFINITY, alookup,
    aupsert, List.foldl]

theorem integrate_foldl_filter (link : Link) (a : Addr) (adv : List (Addr × Cost)) :
    ∀ acc : DVRouter × Bool, acc.1.address = a →
      adv.foldl (integrateStep link) acc =
        (adv.filter (fun e => !(e.1 == a))).foldl (integrateStep link) acc := by
  induction adv with
  | nil => intro acc _; rfl
  | cons e rest ih =>
      intro acc ha
      by_cases he : e.1 = a
      · have hskip : integrateStep link acc e = acc :=
          integrateStep_skip (by rw [ha]; exact he)
        rw [List.foldl_cons, hskip, List.filter_cons, if_neg (by simp [he])]
        exact ih acc ha
      · rw [List.foldl_cons, List.filter_cons]
        have hb : (!(e.1 == a)) = true := by simp [he]
        rw [if_pos hb, List.foldl_cons]
        exact ih (integrateStep link acc e)
          ((integrateStep_address link acc e).trans ha)

/-- C4 amended: the entry skipped by DVRouter.integrate is the one keyed by
    the receiving routers own address, not by the advertisement origins
    address: the routers own entries are never touched and deleting every
    entry keyed by the routers own address from the advertisement leaves
    the result of integrate unchanged. -/
theorem dv_integrate_skips_own_address (r : DVRouter) (link : Link)
    (adv : List (Addr × Cost)) :
    alookup r.address ((integrate r link adv).1).routes =
      alookup r.address r.routes ∧
    alookup r.address ((integrate r link adv).1).spcost =
      alookup r.address r.spcost ∧
    integrate r link adv =
      integrate r link (adv.filter (fun e => !(e.1 == r.address))) := by
  have h3 : integrate r link adv =
      integrate r link (adv.filter (fun e => !(e.1 == r.address))) := by
    unfold integrate
    exact integrate_foldl_filter link r.address adv (r, false) rfl
  have hne : ∀ e ∈ adv.filter (fun e => !(e.1 == r.address)), e.1 ≠ r.address := by
    intro e he
    have := List.of_mem_filter he
    simpa using this
  have hlook := integrate_foldl_lookup_ne link
    (adv.filter (fun e => !(e.1 == r.address))) hne (r, false)
  refine ⟨?_, ?_, h3⟩
  · rw [h3]; exact hlook.1
  · rw [h3]; exact hlook.2

/-- C6: every cost DVRouter.integrate computes or stores is capped at
    INFINITY equal to 32: the candidate cost is the minimum of the sum and
    INFINITY, stored spcost values never exceed INFINITY, and a destination
    whose cost reaches INFINITY through its current next hop link has both
    of its entries removed instead of being stored at 32. -/
theorem dv_integrate_cost_cap :
    (∀ lc c : Cost, newCostOf lc c = min (lc + c) INFINITY) ∧
    (∀ (r : DVRouter) (link : Link) (adv : List (Addr × Cost)),
       (∀ p ∈ r.spcost, p.2 ≤ INFINITY) →
       ∀ p ∈ ((integrate r link adv).1).spcost, p.2 ≤ INFINITY) ∧
    (∀ (r : DVRouter) (link : Link) (adv : List (Addr × Cost)) (d : Addr)
       (c : Cost), wf r → NodupKeys adv → (d, c) ∈ adv → d ≠ r.address →
       alookup d r.routes = some (RouteEntry.lnk link) →
       newCostOf link.cost c = INFINITY →
       alookup d ((integrate r link adv).1).routes = none ∧
       alookup d ((integrate r link adv).1).spcost = none) := by
  refine ⟨newCostOf_eq_min, ?_, ?_⟩
  · intro r link adv hb
    exact integrate_foldl_bound link adv (r, false) hb
  · intro r link adv d c hw hnod hmem hd hroute hinf
    obtain ⟨hnr, hns, hbound, hiff⟩ := hw
    have hchar := integrate_lookup_char r link adv d c hnod hmem hd hnr hns
    have husable : ∃ e, alookup d r.routes = some e ∧ e ≠ RouteEntry.null :=
      ⟨RouteEntry.lnk link, hroute, by intro h; cases h⟩
    obtain ⟨q, hq⟩ := Option.isSome_iff_exists.mp ((hiff d).mp husable)
    have hqlt := hbound d q hq
    have hne : newCostOf link.cost c ≠ (alookup d r.spcost).getD INFINITY := by
      rw [hinf, hq]
      exact ne_of_gt hqlt
    exact ((hchar.1 hroute).1 hne).1 hinf

/-- Witness for dv_integrate_cost_cap at a concrete input. -/
theorem dv_integrate_cost_cap_witness :
    ∀ p ∈ ((integrate (fresh 0) linkW [(1, 100)]).1).spcost, p.2 ≤ INFINITY :=
  dv_integrate_cost_cap.2.1 (fresh 0) linkW [(1, 100)] (by decide)

end DV

end NetSim

namespace NetSim

/-- A concrete idle link between nodes 1 and 2. -/
def lk3 : Link :=
  { end1 := 1, end2 := 2, q12 := [], q21 := [], cost := 1, broken := false }

/-- The link lk3 after node 2 sent packet 99 toward node 1. -/
def lk3s : Link :=
  { end1 := 1, end2 := 2, q12 := [], q21 := [99], cost := 1, broken := false }

/-- C3 counterexample: node 2 sends packet 99, which ends up in the queue
    that receive at end1 pops, so the backlog directed toward end1 has
    length one; yet queue_length at end1 reports zero, because it returns
    the length of q12, the queue from end1 to end2, not the queue from
    end2 to end1. -/
theorem link_queue_length_direction_cex :
    Link.send lk3 lk3.end2 99 = some lk3s ∧
    Link.receive lk3s lk3s.end1 = some (lk3, some 99) ∧
    lk3s.q21.length = 1 ∧
    Link.queue_length lk3s lk3s.end1 = some 0 := by
  refine ⟨?_, ?_, rfl, ?_⟩
  · simp [Link.send, lk3, lk3s]
  · simp [Link.receive, lk3, lk3s]
  · simp [Link.queue_length, lk3s]

/-- C3 amended: queue_length(n) returns the number of packets queued in the
    direction away from n, the backlog that n has sent toward its peer: for
    endpoint end1 the length of the queue from end1 to end2 (the one that
    send by end1 appends to), and for endpoint end2 the length of the queue
    from end2 to end1. -/
theorem link_queue_length_away (l : Link) (p : PacketId) :
    Link.queue_length l l.end1 = some l.q12.length ∧
    (l.end2 ≠ l.end1 → Link.queue_length l l.end2 = some l.q21.length) ∧
    (l.broken = false →
       Link.send l l.end1 p = some { l with q12 := l.q12 ++ [p] }) := by
  refine ⟨?_, ?_, ?_⟩
  · simp [Link.queue_length]
  · intro h
    simp [Link.queue_length, h]
  · intro hb
    simp [Link.send, hb]

/-- Witness for link_queue_length_away at a concrete input. -/
theorem link_queue_length_away_witness :
    Link.queue_length lk3s lk3s.end2 = some lk3s.q21.length ∧
    Link.send lk3s lk3s.end1 7 = some { lk3s with q12 := lk3s.q12 ++ [7] } :=
  ⟨(link_queue_length_away lk3s 7).2.1 (by decide),
   (link_queue_length_away lk3s 7).2.2 rfl⟩

/-- C10: for a node n that is neither endpoint of the link, receive and
    queue_length raise (modeled as none, raised before any mutation, which
    leaves both queues unchanged), and send raises exactly when the link is
    not broken (a broken link drops the packet before the endpoint check);
    for an endpoint node none of the three operations raises. -/
theorem link_endpoint_check (l : Link) (n : Addr) (p : PacketId) :
    (n ≠ l.end1 → n ≠ l.end2 →
       Link.queue_length l n = none ∧
       Link.receive l n = none ∧
       (l.broken = false → Link.send l n p = none) ∧
       (l.broken = true → Link.send l n p = some l)) ∧
    (n = l.end1 ∨ n = l.end2 →
       (Link.queue_length l n).isSome ∧
       (Link.receive l n).isSome ∧
       (Link.send l n p).isSome) := by
  constructor
  · intro h1 h2
    refine ⟨?_, ?_, ?_, ?_⟩
    · simp [Link.queue_length, h1, h2]
    · simp [Link.receive, h1, h2]
    · intro hb
      simp [Link.send, hb, h1, h2]
    · intro hb
      simp [Link.send, hb]
  · intro h
    by_cases h1 : n = l.end1
    · subst h1
      refine ⟨by simp [Link.queue_length], ?_, ?_⟩
      · rcases hq : l.q21 with _ | ⟨p1, rest⟩ <;> simp [Link.receive, hq]
      · by_cases hb : l.broken <;> simp [Link.send, hb]
    · have h2 : n = l.end2 := h.resolve_left h1
      subst h2
      refine ⟨by simp [Link.queue_length, h1], ?_, ?_⟩
      · rcases hq : l.q12 with _ | ⟨p1, rest⟩ <;> simp [Link.receive, h1, hq]
      · by_cases hb : l.broken <;> simp [Link.send, hb, h1]

/-- Witness for link_endpoint_check at a concrete input. -/
theorem link_endpoint_check_witness :
    Link.queue_length lk3 5 = none ∧ Link.receive lk3 5 = none ∧
    Link.send lk3 5 7 = none ∧ (Link.receive lk3 1).isSome := by
  have h := link_endpoint_check lk3 5 7
  have h2 := (link_endpoint_check lk3 1 7).2 (Or.inl rfl)
  exact ⟨(h.1 (by decide) (by decide)).1, (h.1 (by decide) (by decide)).2.1,
    (h.1 (by decide) (by decide)).2.2.1 rfl, h2.2.1⟩

end NetSim

namespace NetSim

namespace LS

/-- LSRouter.INFINITY is sys.maxsize (64 bit) in src/ls.py line 13. -/
def INFINITY : Cost := 9223372036854775807

/-- An ADVERT packet as built by LSRouter.send_lsa: origin address, sequence
    number and the optional neighbor list property. -/
structure LSPacket where
  source : Addr
  seqnum : Int
  neighbors : Option (List (Addr × Cost))
deriving DecidableEq, Repr

/-- State of an LSRouter: its address, incident links, routing dicts, the
    stored LSA dict mapping origins to sequence number plus neighbor list,
    and the local sequence counter. -/
structure LSRouter where
  address : Addr
  links : List Link
  routes : List (Addr × RouteEntry)
  spcost : List (Addr × Cost)
  LSA : List (Addr × (Int × List (Addr × Cost)))
  LSA_seqnum : Int
deriving DecidableEq, Repr

/-- Router.peer from src/netsim/router.py lines 40 to 44.  The source
    returns the other endpoint when the router is one of the two ends and
    implicitly None otherwise; the model totalizes the fallthrough case to
    end1, and every theorem that uses peer assumes wellformed links where
    the router is an endpoint. -/
def peer (r : LSRouter) (l : Link) : Addr :=
  if l.end1 = r.address then l.end2 else l.end1

/-- LSRouter.make_ls_advertisement from src/ls.py lines 22 to 26: all
    active, non broken neighbors with their link costs. -/
def make_ls_advertisement (r : LSRouter) : List (Addr × Cost) :=
  (r.links.filter (fun l => !l.broken)).map (fun l => (peer r l, l.cost))

/-- Router.getlink from src/netsim/router.py lines 32 to 38: the first
    incident link one of whose endpoints carries the given address, none
    for the routers own address or when no link matches. -/
def getlink (r : LSRouter) (nbhr : Addr) : Option Link :=
  if r.address = nbhr then none
  else r.links.find? (fun l => l.end2 == nbhr || l.end1 == nbhr)

/-- The stored sequence number for an origin, with the default (-1,) tuple
    of src/ls.py line 55. -/
def savedSeq (r : LSRouter) (src : Addr) : Int :=
  match alookup src r.LSA with
  | some s => s.1
  | none => -1

/-- LSRouter.process_advertisement from src/ls.py lines 53 to 66.  The
    result none models sys.exit(1); otherwise the updated router state is
    returned together with the list of flood sends (one duplicate of the
    packet per incident link). -/
def process_advertisement (r : LSRouter) (p : LSPacket) :
    Option (LSRouter × List (Link × LSPacket)) :=
  if p.seqnum > savedSeq r p.source then
    match p.neighbors with
    | some nbrs =>
        some ({ r with LSA := aupsert p.source (p.seqnum, nbrs) r.LSA },
              r.links.map (fun l => (l, p)))
    | none => none
  else some (r, [])

/-- C7: delivering an ADVERT whose sequence number is at most the one
    already stored for its origin leaves the LSA dict unchanged and floods
    nothing: it is a complete no-op on router and link state. -/
theorem ls_duplicate_suppression (r : LSRouter) (p : LSPacket) (s : Int)
    (nbrs : List (Addr × Cost))
    (hsaved : alookup p.source r.LSA = some (s, nbrs)) (hseq : p.seqnum ≤ s) :
    process_advertisement r p = some (r, []) := by
  unfold process_advertisement
  have hsv : savedSeq r p.source = s := by rw [savedSeq, hsaved]
  rw [if_neg]
  rw [hsv]
  exact not_lt.mpr hseq

/-- A concrete LSRouter holding an LSA from origin 5 at sequence 4. -/
def lsrC : LSRouter :=
  { address := 0, links := [], routes := [(0, RouteEntry.selfR)],
    spcost := [(0, 0)], LSA := [(5, (4, []))], LSA_seqnum := 0 }

/-- A stale malformed ADVERT from origin 5: sequence 3, no neighbor list. -/
def pktStale : LSPacket := { source := 5, seqnum := 3, neighbors := none }

/-- Witness for ls_duplicate_suppression at a concrete input. -/
theorem ls_duplicate_suppression_witness :
    process_advertisement lsrC { source := 5, seqnum := 4, neighbors := some [] } =
      some (lsrC, []) :=
  ls_duplicate_suppression lsrC _ 4 [] (by decide) (by decide)

/-- C8 counterexample: a malformed advertisement with no neighbor list is
    not fatal when its sequence number is stale: it is silently ignored by
    duplicate suppression (state unchanged, nothing flooded, no exit). -/
theorem ls_stale_malformed_not_fatal :
    pktStale.neighbors = none ∧
    process_advertisement lsrC pktStale = some (lsrC, []) := by
  constructor
  · rfl
  · decide

/-- C8 amended: an ADVERT carrying no neighbor list terminates the process
    if and only if its sequence number is strictly newer than the stored
    (or default) one for its origin; a stale malformed advertisement is a
    complete no-op instead of being fatal. -/
theorem ls_malformed_fatal_iff (r : LSRouter) (p : LSPacket)
    (hmal : p.neighbors = none) :
    (p.seqnum > savedSeq r p.source → process_advertisement r p = none) ∧
    (¬ p.seqnum > savedSeq r p.source →
       process_advertisement r p = some (r, [])) := by
  constructor
  · intro h
    unfold process_advertisement
    rw [if_pos h, hmal]
  · intro h
    unfold process_advertisement
    rw [if_neg h]

/-- Witness for ls_malformed_fatal_iff: a strictly newer malformed ADVERT
    is fatal at a concrete input. -/
theorem ls_malformed_fatal_iff_witness :
    process_advertisement lsrC { source := 5, seqnum := 10, neighbors := none } =
      none :=
  (ls_malformed_fatal_iff lsrC _ rfl).1 (by decide)

end LS

end NetSim

namespace NetSim

/-- Whether node n is an endpoint of the link (phase 1 only calls receive
    on the links attached to the node). -/
def incident (n : Addr) (l : Link) : Bool := n == l.end1 || n == l.end2

/-- The mutation Link.receive performs for an endpoint: pop the oldest
    packet queued toward n (src/netsim/simulation.py lines 168 to 174). -/
def popToward (n : Addr) (l : Link) : Link × Option PacketId :=
  if n = l.end1 then
    match l.q21 with
    | [] => (l, none)
    | p :: rest => ({ l with q21 := rest }, some p)
  else
    match l.q12 with
    | [] => (l, none)
    | p :: rest => ({ l with q12 := rest }, some p)

/-- Node.phase1 from src/netsim/simulation.py lines 78 to 79 for one node:
    pull at most one packet from each incident link, oldest first, into the
    nodes buffer; non incident links are untouched. -/
def phase1Node (n : Addr) : List Link → List Link × List PacketId
  | [] => ([], [])
  | l :: ls =>
      let s := if incident n l then popToward n l else (l, none)
      let rest := phase1Node n ls
      (s.1 :: rest.1, s.2.toList ++ rest.2)

/-- The phase 1 half of Network.step (src/netsim/simulation.py lines 350 to
    357): every node, in the fixed iteration order, drains its incident
    queues before any node runs phase 2. -/
def phase1All (ns : List Addr) (links : List Link) :
    List Link × List (Addr × List PacketId) :=
  match ns with
  | [] => (links, [])
  | n :: rest =>
      let s := phase1Node n links
      let t := phase1All rest s.1
      (t.1, (n, s.2) :: t.2)

/-- The mutation Link.send performs (src/netsim/simulation.py lines 176 to
    184) during phase 2 processing. -/
def sendApply (n : Addr) (p : PacketId) (l : Link) : Link :=
  if l.broken then l
  else if n = l.end1 then { l with q12 := l.q12 ++ [p] }
  else if n = l.end2 then { l with q21 := l.q21 ++ [p] }
  else l

/-- Apply one send of phase 2 to the link at the given index. -/
def sendOnIdx (links : List Link) (n : Addr) (i : Nat) (p : PacketId) : List Link :=
  match links.get? i with
  | some l => links.set i (sendApply n p l)
  | none => links

/-- The phase 2 half of Network.step: each node processes its buffered
    arrivals and emits sends onto link queues.  The protocol processing is
    a parameter (Node.process and Router.process are subclass specific);
    whatever packets it emits are appended to the chosen queues. -/
def phase2All (proc : Addr → List PacketId → List (Nat × PacketId))
    (recvd : List (Addr × List PacketId)) (links : List Link) : List Link :=
  recvd.foldl
    (fun ls entry =>
      (proc entry.1 entry.2).foldl
        (fun ls2 s => sendOnIdx ls2 entry.1 s.1 s.2) ls)
    links

/-- One tick of Network.step: all nodes run phase 1, then all nodes run
    phase 2; the second component is what was delivered for processing in
    this tick. -/
def stepTick (ns : List Addr) (proc : Addr → List PacketId → List (Nat × PacketId))
    (links : List Link) : List Link × List (Addr × List PacketId) :=
  let s := phase1All ns links
  (phase2All proc s.2 s.1, s.2)

/-- A packet sits in some queue of the link list. -/
def inQueues (p : PacketId) (links : List Link) : Prop :=
  ∃ l ∈ links, p ∈ l.q12 ∨ p ∈ l.q21

instance (p : PacketId) (links : List Link) : Decidable (inQueues p links) := by
  unfold inQueues
  infer_instance

theorem popToward_spec (n : Addr) (l : Link) (p : PacketId) :
    (popToward n l).2 = some p ∨
      p ∈ (popToward n l).1.q12 ∨ p ∈ (popToward n l).1.q21 →
    p ∈ l.q12 ∨ p ∈ l.q21 := by
  by_cases h1 : n = l.end1
  · rcases hq : l.q21 with _ | ⟨p1, rest⟩
    · intro h
      have hcalc : popToward n l = (l, none) := by
        unfold popToward
        rw [if_pos h1, hq]
      rw [hcalc, hq] at h
      simpa [hq] using h
    · intro h
      have hcalc : popToward n l = ({ l with q21 := rest }, some p1) := by
        unfold popToward
        rw [if_pos h1, hq]
      rw [hcalc] at h
      simp only [Option.some.injEq] at h
      rcases h with h | h | h
      · right
        rw [← h]
        exact List.mem_cons_self _ _
      · exact Or.inl h
      · right
        exact List.mem_cons_of_mem _ h
  · rcases hq : l.q12 with _ | ⟨p1, rest⟩
    · intro h
      have hcalc : popToward n l = (l, none) := by
        unfold popToward
        rw [if_neg h1, hq]
      rw [hcalc, hq] at h
      simpa [hq] using h
    · intro h
      have hcalc : popToward n l = ({ l with q12 := rest }, some p1) := by
        unfold popToward
        rw [if_neg h1, hq]
      rw [hcalc] at h
      simp only [Option.some.injEq] at h
      rcases h with h | h | h
      · left
        rw [← h]
        exact List.mem_cons_self _ _
      · left
        exact List.mem_cons_of_mem _ h
      · exact Or.inr h

theorem phase1Node_spec (n : Addr) (ls : List Link) (p : PacketId)
    (h : p ∈ (phase1Node n ls).2 ∨ inQueues p (phase1Node n ls).1) :
    inQueues p ls := by
  induction ls with
  | nil =>
      rcases h with h | h
      · simp [phase1Node] at h
      · obtain ⟨l, hl, -⟩ := h
        simp [phase1Node] at hl
  | cons l ls ih =>
      have hstep : phase1Node n (l :: ls) =
          ((if incident n l then popToward n l else (l, none)).1 ::
             (phase1Node n ls).1,
           ((if incident n l then popToward n l else (l, none)).2).toList ++
             (phase1Node n ls).2) := rfl
      rw [hstep] at h
      have hhead : ∀ q : PacketId,
          (if incident n l then popToward n l else (l, none)).2 = some q ∨
          q ∈ (if incident n l then popToward n l else (l, none)).1.q12 ∨
          q ∈ (if incident n l then popToward n l else (l, none)).1.q21 →
          q ∈ l.q12 ∨ q ∈ l.q21 := by
        intro q hq
        by_cases hi : incident n l
        · rw [if_pos hi] at hq
          exact popToward_spec n l q hq
        · rw [if_neg hi] at hq
          simpa using hq
      rcases h with h | h
      · rcases List.mem_append.mp h with h | h
        · have : (if incident n l then popToward n l else (l, none)).2 = some p := by
            rcases ho : (if incident n l then popToward n l else (l, none)).2 with
              _ | q
            · rw [ho] at h; simp at h
            · rw [ho] at h
              simp only [Option.toList_some, List.mem_singleton] at h
              rw [h]
          exact ⟨l, List.mem_cons_self _ _, hhead p (Or.inl this)⟩
        · obtain ⟨l2, hl2, hq⟩ := ih (Or.inl h)
          exact ⟨l2, List.mem_cons_of_mem _ hl2, hq⟩
      · obtain ⟨l2, hl2, hq⟩ := h
        rcases List.mem_cons.mp hl2 with hl2 | hl2
        · subst hl2
          exact ⟨l, List.mem_cons_self _ _, hhead p (Or.inr hq)⟩
        · obtain ⟨l3, hl3, hq3⟩ := ih (Or.inr ⟨l2, hl2, hq⟩)
          exact ⟨l3, List.mem_cons_of_mem _ hl3, hq3⟩

theorem phase1All_spec (ns : List Addr) (p : PacketId) :
    ∀ links : List Link,
      ((∃ entry ∈ (phase1All ns links).2, p ∈ entry.2) ∨
        inQueues p (phase1All ns links).1) →
      inQueues p links := by
  induction ns with
  | nil =>
      intro links h
      rcases h with h | h
      · obtain ⟨entry, he, -⟩ := h
        simp [phase1All] at he
      · exact h
  | cons n rest ih =>
      intro links h
      have hstep : phase1All (n :: rest) links =
          ((phase1All rest (phase1Node n links).1).1,
           (n, (phase1Node n links).2) ::
             (phase1All rest (phase1Node n links).1).2) := rfl
      rw [hstep] at h
      rcases h with h | h
      · obtain ⟨entry, he, hp⟩ := h
        rcases List.mem_cons.mp he with he | he
        · subst he
          exact phase1Node_spec n links p (Or.inl hp)
        · have := ih (phase1Node n links).1 (Or.inl ⟨entry, he, hp⟩)
          exact phase1Node_spec n links p (Or.inr this)
      · have := ih (phase1Node n links).1 (Or.inr h)
        exact phase1Node_spec n links p (Or.inr this)

/-- C2: in one tick of Network.step every node completes phase 1 before any
    node runs phase 2 (the delivered buffers are exactly the phase 1
    output), so a packet that is not already sitting in a link queue when
    the tick starts, in particular one placed onto a queue by phase 2
    processing during this tick, is never delivered to any node within the
    same tick: it becomes visible no earlier than phase 1 of the next tick. -/
theorem step_no_same_tick_delivery (ns : List Addr)
    (proc : Addr → List PacketId → List (Nat × PacketId)) (links : List Link)
    (p : PacketId) (hfresh : ¬ inQueues p links) :
    (stepTick ns proc links).2 = (phase1All ns links).2 ∧
    ∀ entry ∈ (stepTick ns proc links).2, p ∉ entry.2 := by
  refine ⟨rfl, ?_⟩
  intro entry he hp
  exact hfresh (phase1All_spec ns p links (Or.inl ⟨entry, he, hp⟩))

/-- A phase 2 processing function used by the witness: node 1 answers every
    delivery by sending packet 42 on link 0. -/
def procW : Addr → List PacketId → List (Nat × PacketId) := fun _ _ => [(0, 42)]

/-- Witness for step_no_same_tick_delivery at a concrete input: on a link
    holding packet 99 toward node 1, the tick delivers 99 but the freshly
    sent packet 42 is not delivered within the tick. -/
theorem step_no_same_tick_delivery_witness :
    (stepTick [1] procW [lk3s]).2 = [(1, [99])] ∧
    42 ∉ ((1, [99]) : Addr × List PacketId).2 := by
  refine ⟨by decide, ?_⟩
  exact (step_no_same_tick_delivery [1] procW [lk3s] 42 (by decide)).2
    (1, [99]) (by decide)

end NetSim

namespace NetSim

namespace RouterNet

/-- Packet type tags used by the simulator. -/
inductive PType where
  | HELLO : PType
  | ADVERT : PType
  | DATA : PType
deriving DecidableEq, Repr

/-- A packet as created by Network.make_packet: source, destination, type
    tag and creation tick. -/
structure NPacket where
  source : Addr
  destination : Addr
  ptype : PType
  start : Nat
deriving DecidableEq, Repr

/-- The state of a Router node relevant to reset and step: its address,
    routing dicts, neighbor table and deferred transmit queue. -/
structure RRouter where
  address : Addr
  routes : List (Addr × RouteEntry)
  spcost : List (Addr × Cost)
  neighbors : List (Nat × (Nat × Addr × Cost))
  transmit_queue : List NPacket
deriving DecidableEq, Repr

/-- A router network: the clock, the routers in iteration order, and the
    links. -/
structure RNetwork where
  time : Nat
  routers : List RRouter
  links : List Link
deriving DecidableEq, Repr

/-- Router.reset from src/netsim/router.py lines 26 to 30 on top of
    Node.reset (clears transmit queue): self route, zero self cost, empty
    neighbor table. -/
def routerReset (r : RRouter) : RRouter :=
  { r with routes := [(r.address, RouteEntry.selfR)],
           spcost := [(r.address, 0)],
           neighbors := [],
           transmit_queue := [] }

/-- Link.reset from src/netsim/simulation.py lines 156 to 158. -/
def linkReset (l : Link) : Link := { l with q12 := [], q21 := [] }

/-- Network.reset from src/netsim/simulation.py lines 340 to 347: reset
    every node and link and rewind the clock to 0. -/
def networkReset (net : RNetwork) : RNetwork :=
  { time := 0,
    routers := net.routers.map routerReset,
    links := net.links.map linkReset }

/-- Node.add_packet from src/netsim/simulation.py lines 69 to 77: insert
    before the first queued packet with a later start tick, else append. -/
def add_packet (p : NPacket) : List NPacket → List NPacket
  | [] => [p]
  | pp :: rest =>
      if p.start < pp.start then p :: pp :: rest else pp :: add_packet p rest

/-- RouterNetwork.reset from src/netsim/router.py lines 125 to 131:
    Network.reset followed by injecting one demonstration DATA packet into
    the transmit queue of a chosen source node (random in the source,
    passed as an index here). -/
def routerNetworkReset (net : RNetwork) (si : Nat) (pkt : NPacket) : RNetwork :=
  let net2 := networkReset net
  match net2.routers.get? si with
  | some r =>
      { net2 with
        routers := net2.routers.set si
          { r with transmit_queue := add_packet pkt r.transmit_queue } }
  | none => net2

/-- Network.step from src/netsim/simulation.py lines 350 to 357: run the
    per tick two phase body (tick) once per requested count; with count
    zero the while loop body never runs. -/
def netStep (tick : RNetwork → RNetwork) : Nat → RNetwork → RNetwork
  | 0, net => net
  | c + 1, net => netStep tick c (tick net)

/-- C9: reset() followed by step(0) leaves every router exactly as freshly
    initialized: routes holds only the self address mapped to the Self
    sentinel, spcost only the self address mapped to 0, and the neighbor
    table is empty; step(0) advances the clock by zero ticks (time stays 0)
    and changes no routing table, whatever the per tick body does. -/
theorem reset_step_zero_fresh (tick : RNetwork → RNetwork) (net : RNetwork)
    (si : Nat) (pkt : NPacket) :
    (netStep tick 0 (routerNetworkReset net si pkt)).time = 0 ∧
    ∀ r ∈ (netStep tick 0 (routerNetworkReset net si pkt)).routers,
      r.routes = [(r.address, RouteEntry.selfR)] ∧
      r.spcost = [(r.address, 0)] ∧
      r.neighbors = [] := by
  have hstep : netStep tick 0 (routerNetworkReset net si pkt) =
      routerNetworkReset net si pkt := rfl
  rw [hstep]
  have hfresh : ∀ r ∈ (networkReset net).routers,
      r.routes = [(r.address, RouteEntry.selfR)] ∧
      r.spcost = [(r.address, 0)] ∧ r.neighbors = [] := by
    intro r hr
    obtain ⟨orig, -, rfl⟩ := List.mem_map.mp hr
    exact ⟨rfl, rfl, rfl⟩
  rcases hg : (networkReset net).routers.get? si with _ | r0
  · have heq : routerNetworkReset net si pkt = networkReset net := by
      simp only [routerNetworkReset]
      rw [hg]
    rw [heq]
    exact ⟨rfl, hfresh⟩
  · obtain ⟨v, hv, hvr, hvs, hvn, hva⟩ :
        ∃ v : RRouter, routerNetworkReset net si pkt =
            { networkReset net with
              routers := (networkReset net).routers.set si v } ∧
          v.routes = r0.routes ∧ v.spcost = r0.spcost ∧
          v.neighbors = r0.neighbors ∧ v.address = r0.address := by
      refine ⟨{ r0 with transmit_queue := add_packet pkt r0.transmit_queue },
        ?_, rfl, rfl, rfl, rfl⟩
      simp only [routerNetworkReset]
      rw [hg]
    rw [hv]
    refine ⟨rfl, ?_⟩
    intro r hr
    rcases List.mem_or_eq_of_mem_set hr with hr | hr
    · exact hfresh r hr
    · subst hr
      have hr0 := hfresh r0 (List.get?_mem hg)
      rw [hvr, hvs, hvn, hva]
      exact ⟨hr0.1, hr0.2.1, hr0.2.2⟩

/-- A concrete one router network with dirty routing state. -/
def netW : RNetwork :=
  { time := 7,
    routers := [{ address := 3, routes := [(5, RouteEntry.null)],
                  spcost := [(5, 44)], neighbors := [(0, (1, 2, 3))],
                  transmit_queue := [] }],
    links := [lk3s] }

/-- The demonstration packet injected by the witness reset. -/
def pktW : NPacket :=
  { source := 3, destination := 3, ptype := PType.DATA, start := 20 }

/-- Witness for reset_step_zero_fresh at a concrete input. -/
theorem reset_step_zero_fresh_witness :
    ({ address := 3, routes := [(3, RouteEntry.selfR)], spcost := [(3, 0)],
       neighbors := [], transmit_queue := [pktW] } : RRouter).routes =
      [(3, RouteEntry.selfR)] ∧
    ({ address := 3, routes := [(3, RouteEntry.selfR)], spcost := [(3, 0)],
       neighbors := [], transmit_queue := [pktW] } : RRouter).spcost = [(3, 0)] ∧
    ({ address := 3, routes := [(3, RouteEntry.selfR)], spcost := [(3, 0)],
       neighbors := [], transmit_queue := [pktW] } : RRouter).neighbors = [] :=
  (reset_step_zero_fresh id netW 0 pktW).2 _ (by
    have h : (netStep id 0 (routerNetworkReset netW 0 pktW)).routers =
        [{ address := 3, routes := [(3, RouteEntry.selfR)], spcost := [(3, 0)],
           neighbors := [], transmit_queue := [pktW] }] := rfl
    rw [h]
    exact List.mem_cons_self _ _)

end RouterNet

end NetSim

namespace NetSim

namespace LS

/-- The neighbor list stored in the LSA dict for an origin (the LSA entry
    without its leading sequence number), empty when absent. -/
def lsaNbrs (lsa : List (Addr × (Int × List (Addr × Cost)))) (u : Addr) :
    List (Addr × Cost) :=
  match alookup u lsa with
  | some s => s.2
  | none => []

/-- One iteration of the growing for loop of LSRouter.get_all_nodes
    (src/ls.py lines 68 to 76): append every neighbor of u not seen yet. -/
def gatherStep (lsa : List (Addr × (Int × List (Addr × Cost))))
    (acc : List Addr) (u : Addr) : List Addr :=
  (lsaNbrs lsa u).foldl (fun a e => if e.1 ∈ a then a else a ++ [e.1]) acc

/-- The loop of get_all_nodes: Python iterates over the list while it
    grows; the index i walks the list, and the fuel bounds the number of
    iterations (the list length is bounded by the addresses in the LSA). -/
def gatherGo (lsa : List (Addr × (Int × List (Addr × Cost)))) :
    Nat → List Addr → Nat → List Addr
  | 0, acc, _ => acc
  | fuel + 1, acc, i =>
      if h : i < acc.length then
        gatherGo lsa fuel (gatherStep lsa acc (acc.get ⟨i, h⟩)) (i + 1)
      else acc

/-- LSRouter.get_all_nodes from src/ls.py lines 68 to 76. -/
def get_all_nodes (r : LSRouter) : List Addr :=
  gatherGo r.LSA (1 + (r.LSA.map (fun e => e.2.2.length)).sum) [r.address] 0

/-- min(unvisited, key = dist) of src/ls.py line 100: the first element
    attaining the minimum (the source iterates a set in an arbitrary but
    deterministic order; the model fixes list order). -/
def argmin (dist : Addr → Cost) (l : List Addr) : Option Addr :=
  l.foldl
    (fun acc x =>
      match acc with
      | none => some x
      | some y => if dist x < dist y then some x else acc)
    none

/-- The edge relaxation loop of run_dijkstra (src/ls.py lines 102 to 110):
    relax every outgoing edge of u, tracking the first hop from the
    source. -/
def relaxEdges (selfA u : Addr) (edges : List (Addr × Cost))
    (dn : (Addr → Cost) × (Addr → Option Addr)) :
    (Addr → Cost) × (Addr → Option Addr) :=
  edges.foldl
    (fun dn e =>
      if dn.1 u + e.2 < dn.1 e.1 then
        (Function.update dn.1 e.1 (dn.1 u + e.2),
         Function.update dn.2 e.1 (if u = selfA then some e.1 else dn.2 u))
      else dn)
    dn

/-- The while loop of run_dijkstra (src/ls.py lines 99 to 110): extract the
    unvisited node with minimum tentative distance and relax its edges; the
    fuel equals the initial number of unvisited nodes, which the while loop
    consumes one per iteration. -/
def dijkstraGo (selfA : Addr) (graph : Addr → List (Addr × Cost)) :
    Nat → List Addr → (Addr → Cost) × (Addr → Option Addr) →
      (Addr → Cost) × (Addr → Option Addr)
  | 0, _, dn => dn
  | fuel + 1, unvisited, dn =>
      match argmin dn.1 unvisited with
      | none => dn
      | some u =>
          dijkstraGo selfA graph fuel (unvisited.erase u)
            (relaxEdges selfA u (graph u) dn)

/-- The graph built at src/ls.py lines 94 to 98: the routers own current
    advertisement for itself, the stored LSA body for everyone else (empty
    when unknown).  The source dict holds keys for the given nodes only and
    is read through graph.get(u, []) at the nodes; the total function
    agrees there. -/
def graphFn (r : LSRouter) (u : Addr) : List (Addr × Cost) :=
  if u = r.address then make_ls_advertisement r
  else lsaNbrs r.LSA u

/-- The route entry stored for a destination at src/ls.py lines 115 to 119:
    getlink of the first hop when one was recorded, the explicit None
    otherwise (also when getlink finds no link). -/
def routeVal (r : LSRouter) (nh : Addr → Option Addr) (v : Addr) : RouteEntry :=
  match nh v with
  | some w =>
      match getlink r w with
      | some l => RouteEntry.lnk l
      | none => RouteEntry.null
  | none => RouteEntry.null

/-- LSRouter.run_dijkstra from src/ls.py lines 86 to 119: initialize
    distances, run the loop and replace spcost entirely with the computed
    distances, then set the route for every non self node from its first
    hop. -/
def run_dijkstra (r : LSRouter) (nodes : List Addr) : LSRouter :=
  let dist0 : Addr → Cost := fun u => if u = r.address then 0 else INFINITY
  let nh0 : Addr → Option Addr := fun _ => none
  let dn := dijkstraGo r.address (graphFn r) nodes.length nodes (dist0, nh0)
  { r with
    spcost := nodes.map (fun u => (u, dn.1 u)),
    routes := (nodes.filter (fun v => !(v == r.address))).foldl
      (fun rs v => aupsert v (routeVal r dn.2 v) rs)
      r.routes }

/-- LSRouter.integrate from src/ls.py lines 121 to 131: reset routes to the
    self sentinel, refresh the own LSA with the current advertisement,
    gather all known nodes, reinitialize spcost and run Dijkstra. -/
def integrate (r : LSRouter) : LSRouter :=
  let r1 : LSRouter := { r with routes := [(r.address, RouteEntry.selfR)] }
  let r2 : LSRouter :=
    { r1 with
      LSA := aupsert r1.address (r1.LSA_seqnum, make_ls_advertisement r1) r1.LSA }
  let nodes := get_all_nodes r2
  let r3 : LSRouter :=
    { r2 with spcost := aupsert r2.address 0 (nodes.map (fun u => (u, INFINITY))) }
  run_dijkstra r3 nodes

theorem gatherStep_extends (lsa : List (Addr × (Int × List (Addr × Cost))))
    (acc : List Addr) (u : Addr) : ∃ t, gatherStep lsa acc u = acc ++ t := by
  unfold gatherStep
  generalize lsaNbrs lsa u = es
  induction es generalizing acc with
  | nil => exact ⟨[], by simp⟩
  | cons e rest ih =>
      rw [List.foldl_cons]
      by_cases hm : e.1 ∈ acc
      · rw [if_pos hm]
        exact ih acc
      · rw [if_neg hm]
        obtain ⟨t, ht⟩ := ih (acc ++ [e.1])
        exact ⟨[e.1] ++ t, by rw [ht, List.append_assoc]⟩

theorem gatherGo_extends (lsa : List (Addr × (Int × List (Addr × Cost)))) :
    ∀ (fuel : Nat) (acc : List Addr) (i : Nat),
      ∃ t, gatherGo lsa fuel acc i = acc ++ t := by
  intro fuel
  induction fuel with
  | zero => exact fun acc i => ⟨[], by simp [gatherGo]⟩
  | succ fuel ih =>
      intro acc i
      unfold gatherGo
      by_cases h : i < acc.length
      · rw [dif_pos h]
        obtain ⟨s, hs⟩ := gatherStep_extends lsa acc (acc.get ⟨i, h⟩)
        obtain ⟨t, ht⟩ := ih (gatherStep lsa acc (acc.get ⟨i, h⟩)) (i + 1)
        exact ⟨s ++ t, by rw [ht, hs, List.append_assoc]⟩
      · rw [dif_neg h]
        exact ⟨[], by simp⟩

theorem mem_get_all_nodes_self (r : LSRouter) : r.address ∈ get_all_nodes r := by
  unfold get_all_nodes
  obtain ⟨t, ht⟩ := gatherGo_extends r.LSA
    (1 + (r.LSA.map (fun e => e.2.2.length)).sum) [r.address] 0
  rw [ht]
  exact List.mem_append_left _ (List.mem_singleton_self _)

end LS

end NetSim

namespace NetSim

namespace LS

/-- Loop invariant of run_dijkstra: distances stay within [0, INFINITY],
    the source keeps distance 0, a non source node has a finite distance
    exactly when a next hop has been recorded for it, and every recorded
    next hop is a target of the sources own advertisement (a first hop). -/
def dnInv (selfA : Addr) (advT : List Addr)
    (dn : (Addr → Cost) × (Addr → Option Addr)) : Prop :=
  (∀ v, 0 ≤ dn.1 v ∧ dn.1 v ≤ INFINITY) ∧
  dn.1 selfA = 0 ∧
  (∀ v, v ≠ selfA → (dn.1 v < INFINITY ↔ dn.2 v ≠ none)) ∧
  (∀ v w, dn.2 v = some w → w ∈ advT)

theorem relaxEdges_inv (selfA u : Addr) (advT : List Addr)
    (edges : List (Addr × Cost)) :
    ∀ dn, dnInv selfA advT dn → (∀ e ∈ edges, 0 ≤ e.2) →
      (u = selfA → ∀ e ∈ edges, e.1 ∈ advT) →
      dnInv selfA advT (relaxEdges selfA u edges dn) := by
  induction edges with
  | nil => exact fun dn h _ _ => h
  | cons e rest ih =>
      intro dn hInv hc ht
      have hstep : relaxEdges selfA u (e :: rest) dn =
          relaxEdges selfA u rest
            (if dn.1 u + e.2 < dn.1 e.1 then
              (Function.update dn.1 e.1 (dn.1 u + e.2),
               Function.update dn.2 e.1 (if u = selfA then some e.1 else dn.2 u))
            else dn) := rfl
      rw [hstep]
      refine ih _ ?_ (fun e2 he2 => hc e2 (List.mem_cons_of_mem _ he2))
        (fun hu e2 he2 => ht hu e2 (List.mem_cons_of_mem _ he2))
      by_cases hlt : dn.1 u + e.2 < dn.1 e.1
      · rw [if_pos hlt]
        obtain ⟨hb, hs, hiff, hadv⟩ := hInv
        have hce : 0 ≤ e.2 := hc e (List.mem_cons_self _ _)
        have halt0 : 0 ≤ dn.1 u + e.2 := add_nonneg (hb u).1 hce
        have he1self : e.1 ≠ selfA := by
          intro hcon
          rw [hcon, hs] at hlt
          exact absurd hlt (not_lt.mpr halt0)
        have haltINF : dn.1 u + e.2 < INFINITY := lt_of_lt_of_le hlt (hb e.1).2
        refine ⟨?_, ?_, ?_, ?_⟩
        · intro v
          dsimp only
          by_cases hv : v = e.1
          · subst hv
            rw [Function.update_same]
            exact ⟨halt0, le_of_lt haltINF⟩
          · rw [Function.update_noteq hv]
            exact hb v
        · dsimp only
          rw [Function.update_noteq (Ne.symm he1self)]
          exact hs
        · intro v hv
          dsimp only
          by_cases hve : v = e.1
          · subst hve
            rw [Function.update_same, Function.update_same]
            constructor
            · intro _
              by_cases hu : u = selfA
              · rw [if_pos hu]
                exact fun hcon => Option.some_ne_none _ hcon
              · rw [if_neg hu]
                have hduINF : dn.1 u < INFINITY :=
                  lt_of_le_of_lt (le_add_of_nonneg_right hce) haltINF
                exact (hiff u hu).mp hduINF
            · intro _
              exact haltINF
          · rw [Function.update_noteq hve, Function.update_noteq hve]
            exact hiff v hv
        · intro v w hw
          dsimp only at hw
          by_cases hve : v = e.1
          · subst hve
            rw [Function.update_same] at hw
            by_cases hu : u = selfA
            · rw [if_pos hu] at hw
              have hwe : w = e.1 := by
                injection hw with h2
                exact h2.symm
              rw [hwe]
              exact ht hu e (List.mem_cons_self _ _)
            · rw [if_neg hu] at hw
              exact hadv u w hw
          · rw [Function.update_noteq hve] at hw
            exact hadv v w hw
      · rw [if_neg hlt]
        exact hInv

theorem dijkstraGo_inv (selfA : Addr) (graph : Addr → List (Addr × Cost))
    (advT : List Addr) (hc : ∀ u, ∀ e ∈ graph u, 0 ≤ e.2)
    (ht : ∀ e ∈ graph selfA, e.1 ∈ advT) :
    ∀ (fuel : Nat) (unvisited : List Addr)
      (dn : (Addr → Cost) × (Addr → Option Addr)),
      dnInv selfA advT dn →
      dnInv selfA advT (dijkstraGo selfA graph fuel unvisited dn) := by
  intro fuel
  induction fuel with
  | zero => exact fun _ dn h => h
  | succ fuel ih =>
      intro unvisited dn h
      unfold dijkstraGo
      cases hm : argmin dn.1 unvisited with
      | none => exact h
      | some u =>
          exact ih (unvisited.erase u) _
            (relaxEdges_inv selfA u advT (graph u) dn h (hc u)
              (fun hu e he => ht e (by rw [← hu]; exact he)))

theorem dnInv_init (selfA : Addr) (advT : List Addr) :
    dnInv selfA advT
      ((fun u => if u = selfA then 0 else INFINITY), fun _ => none) := by
  refine ⟨?_, by simp, ?_, by simp⟩
  · intro v
    by_cases hv : v = selfA
    · simp only [hv, if_pos rfl]
      norm_num [INFINITY]
    · simp only [if_neg hv]
      norm_num [INFINITY]
  · intro v hv
    simp [hv]

end LS

end NetSim

namespace NetSim

theorem mem_of_alookup_some {β : Type} {k : Addr} {l : List (Addr × β)} {v : β}
    (h : alookup k l = some v) : (k, v) ∈ l := by
  induction l with
  | nil => cases h
  | cons hd tl ih =>
      obtain ⟨k2, w⟩ := hd
      by_cases h2 : k2 = k
      · subst h2
        rw [alookup_cons_self] at h
        injection h with h3
        rw [← h3]
        exact List.mem_cons_self _ _
      · rw [alookup_cons_ne _ _ h2] at h
        exact List.mem_cons_of_mem _ (ih h)

theorem alookup_map_pair {β : Type} (f : Addr → β) (nodes : List Addr) (d : Addr) :
    alookup d (nodes.map (fun u => (u, f u))) =
      if d ∈ nodes then some (f d) else none := by
  induction nodes with
  | nil => simp [alookup]
  | cons u rest ih =>
      by_cases hu : u = d
      · subst hu
        rw [List.map_cons, alookup_cons_self,
          if_pos (List.mem_cons_self _ _)]
      · rw [List.map_cons, alookup_cons_ne _ _ hu, ih]
        by_cases hd : d ∈ rest
        · rw [if_pos hd, if_pos (List.mem_cons_of_mem _ hd)]
        · rw [if_neg hd, if_neg (by
            intro hcon
            rcases List.mem_cons.mp hcon with h | h
            · exact hu h.symm
            · exact hd h)]

theorem alookup_foldl_aupsert {β : Type} (f : Addr → β) (ks : List Addr) :
    ∀ (l0 : List (Addr × β)) (d : Addr),
      alookup d (ks.foldl (fun rs v => aupsert v (f v) rs) l0) =
        if d ∈ ks then some (f d) else alookup d l0 := by
  induction ks with
  | nil => intro l0 d; simp
  | cons v rest ih =>
      intro l0 d
      rw [List.foldl_cons, ih]
      by_cases hd : d ∈ rest
      · rw [if_pos hd, if_pos (List.mem_cons_of_mem _ hd)]
      · rw [if_neg hd]
        by_cases hv : v = d
        · subst hv
          rw [alookup_aupsert_self, if_pos (List.mem_cons_self _ _)]
        · rw [alookup_aupsert_ne _ _ (fun h => hv h.symm), if_neg (by
            intro hcon
            rcases List.mem_cons.mp hcon with h | h
            · exact hv h.symm
            · exact hd h)]

theorem find_some_of_mem {α : Type} (p : α → Bool) (l : List α) (x : α)
    (hx : x ∈ l) (hp : p x = true) : ∃ y, l.find? p = some y := by
  induction l with
  | nil => cases hx
  | cons a rest ih =>
      by_cases ha : p a = true
      · exact ⟨a, List.find?_cons_of_pos _ ha⟩
      · rcases List.mem_cons.mp hx with h | h
        · subst h
          exact absurd hp ha
        · obtain ⟨y, hy⟩ := ih h
          exact ⟨y, by rw [List.find?_cons_of_neg _ ha, hy]⟩

namespace LS

theorem mem_advert {r0 : LSRouter} {e : Addr × Cost}
    (he : e ∈ make_ls_advertisement r0) :
    ∃ l, l ∈ r0.links ∧ e = (peer r0 l, l.cost) := by
  unfold make_ls_advertisement at he
  obtain ⟨l, hl, hle⟩ := List.mem_map.mp he
  exact ⟨l, List.mem_of_mem_filter hl, hle.symm⟩

theorem peer_ne_address {r0 : LSRouter} {l : Link}
    (hwl : l.end1 = r0.address ∨ l.end2 = r0.address) (hnl : l.end1 ≠ l.end2) :
    peer r0 l ≠ r0.address ∧ (l.end2 = peer r0 l ∨ l.end1 = peer r0 l) := by
  unfold peer
  by_cases h1 : l.end1 = r0.address
  · rw [if_pos h1]
    refine ⟨?_, Or.inl rfl⟩
    intro hcon
    exact hnl (by rw [h1, ← hcon])
  · rw [if_neg h1]
    exact ⟨h1, Or.inr rfl⟩

end LS

end NetSim

namespace NetSim

namespace LS

theorem run_dijkstra_claimInv (r : LSRouter) (nodes : List Addr)
    (hself : r.address ∈ nodes)
    (hroutes : r.routes = [(r.address, RouteEntry.selfR)])
    (hc : ∀ u, ∀ e ∈ graphFn r u, 0 ≤ e.2)
    (hgl : ∀ w ∈ (make_ls_advertisement r).map Prod.fst, ∃ l, getlink r w = some l) :
    ∀ d,
      (∃ e, alookup d (run_dijkstra r nodes).routes = some e ∧
            e ≠ RouteEntry.null) ↔
      (∃ q, alookup d (run_dijkstra r nodes).spcost = some q ∧ q < INFINITY) := by
  have hInv : dnInv r.address ((make_ls_advertisement r).map Prod.fst)
      (dijkstraGo r.address (graphFn r) nodes.length nodes
        ((fun u => if u = r.address then 0 else INFINITY), fun _ => none)) := by
    refine dijkstraGo_inv r.address (graphFn r) _ hc ?_ nodes.length nodes _
      (dnInv_init r.address _)
    intro e he
    refine List.mem_map_of_mem Prod.fst ?_
    unfold graphFn at he
    rw [if_pos rfl] at he
    exact he
  set dnF := dijkstraGo r.address (graphFn r) nodes.length nodes
    ((fun u => if u = r.address then 0 else INFINITY), fun _ => none) with hdnF
  obtain ⟨hb, hs0, hiff, hadv⟩ := hInv
  have hsp : (run_dijkstra r nodes).spcost =
      nodes.map (fun u => (u, dnF.1 u)) := rfl
  have hrt : (run_dijkstra r nodes).routes =
      (nodes.filter (fun v => !(v == r.address))).foldl
        (fun rs v => aupsert v (routeVal r dnF.2 v) rs)
        r.routes := rfl
  intro d
  rw [hsp, hrt, alookup_map_pair, alookup_foldl_aupsert (routeVal r dnF.2)]
  by_cases hda : d = r.address
  · subst hda
    have hnotin : r.address ∉ nodes.filter (fun v => !(v == r.address)) := by
      intro hcon
      have := List.of_mem_filter hcon
      simp at this
    rw [if_neg hnotin, hroutes, alookup_cons_self, if_pos hself]
    constructor
    · intro _
      refine ⟨dnF.1 r.address, rfl, ?_⟩
      rw [hs0]
      norm_num [INFINITY]
    · intro _
      exact ⟨RouteEntry.selfR, rfl, by intro h; cases h⟩
  · by_cases hdn : d ∈ nodes
    · have hin : d ∈ nodes.filter (fun v => !(v == r.address)) :=
        List.mem_filter.mpr ⟨hdn, by simp [hda]⟩
      rw [if_pos hin, if_pos hdn]
      constructor
      · rintro ⟨e, he, hne⟩
        injection he with he2
        refine ⟨dnF.1 d, rfl, ?_⟩
        rcases ho : dnF.2 d with _ | w
        · simp only [routeVal, ho] at he2
          exact absurd he2.symm hne
        · exact (hiff d hda).mpr (by rw [ho]; exact fun hcon => Option.noConfusion hcon)
      · rintro ⟨q, hq, hlt⟩
        injection hq with hq2
        have hdlt : dnF.1 d < INFINITY := by rw [hq2]; exact hlt
        have hnh : dnF.2 d ≠ none := (hiff d hda).mp hdlt
        rcases ho : dnF.2 d with _ | w
        · exact absurd ho hnh
        · obtain ⟨l, hl⟩ := hgl w (hadv d w ho)
          refine ⟨RouteEntry.lnk l, ?_, by intro h; cases h⟩
          simp only [routeVal, ho, hl]
    · have hnin : d ∉ nodes.filter (fun v => !(v == r.address)) :=
        fun hcon => hdn (List.mem_of_mem_filter hcon)
      rw [if_neg hnin, if_neg hdn, hroutes,
        alookup_cons_ne _ _ (fun h => hda h.symm), alookup_nil]
      constructor
      · rintro ⟨e, he, -⟩
        cases he
      · rintro ⟨q, hq, -⟩
        cases hq

end LS

end NetSim

namespace NetSim

namespace LS

/-- The router state after the first two statements of LSRouter.integrate:
    routes reduced to the self sentinel and the own LSA refreshed. -/
def integR2 (r : LSRouter) : LSRouter :=
  { r with routes := [(r.address, RouteEntry.selfR)],
           LSA := aupsert r.address (r.LSA_seqnum, make_ls_advertisement r) r.LSA }

/-- The router state handed to run_dijkstra by LSRouter.integrate: spcost
    reinitialized to INFINITY on all gathered nodes and 0 for self. -/
def integR3 (r : LSRouter) : LSRouter :=
  { integR2 r with
    spcost := aupsert r.address 0
      ((get_all_nodes (integR2 r)).map (fun u => (u, INFINITY))) }

theorem integrate_eq (r : LSRouter) :
    integrate r = run_dijkstra (integR3 r) (get_all_nodes (integR2 r)) := rfl

/-- C5, link-state part: after the periodic recomputation LSRouter.integrate
    the routing table satisfies the invariant: a destination has a usable
    routes entry (the Self sentinel or a real link, not the stored None)
    exactly when its spcost entry exists and is strictly below INFINITY.
    Hypotheses: stored LSA costs and link costs are nonnegative, and links
    are wellformed (the router is one of the two distinct endpoints). -/
theorem ls_integrate_claimInv (r : LSRouter)
    (hc1 : ∀ s ∈ r.LSA, ∀ e ∈ s.2.2, 0 ≤ e.2)
    (hc2 : ∀ l ∈ r.links, 0 ≤ l.cost)
    (hwl : ∀ l ∈ r.links, l.end1 = r.address ∨ l.end2 = r.address)
    (hnl : ∀ l ∈ r.links, l.end1 ≠ l.end2) :
    ∀ d,
      (∃ e, alookup d (integrate r).routes = some e ∧ e ≠ RouteEntry.null) ↔
      (∃ q, alookup d (integrate r).spcost = some q ∧ q < INFINITY) := by
  rw [integrate_eq]
  apply run_dijkstra_claimInv
  · exact mem_get_all_nodes_self (integR2 r)
  · rfl
  · intro u e he
    unfold graphFn at he
    by_cases hu : u = (integR3 r).address
    · rw [if_pos hu] at he
      obtain ⟨l, hlmem, hle⟩ := mem_advert he
      have hlmem2 : l ∈ r.links := hlmem
      have hcost : e.2 = l.cost := by rw [hle]
      rw [hcost]
      exact hc2 l hlmem2
    · rw [if_neg hu] at he
      have hu2 : u ≠ r.address := hu
      have hlk : alookup u (integR3 r).LSA = alookup u r.LSA := by
        have hLSA : (integR3 r).LSA =
            aupsert r.address (r.LSA_seqnum, make_ls_advertisement r) r.LSA := rfl
        rw [hLSA]
        exact alookup_aupsert_ne _ _ hu2
      unfold lsaNbrs at he
      rw [hlk] at he
      rcases hl3 : alookup u r.LSA with _ | s
      · rw [hl3] at he
        simp at he
      · rw [hl3] at he
        exact hc1 (u, s) (mem_of_alookup_some hl3) e he
  · intro w hw
    obtain ⟨e, he, hew⟩ := List.mem_map.mp hw
    obtain ⟨l0, hl0mem, hl0e⟩ := mem_advert he
    have hl0mem2 : l0 ∈ r.links := hl0mem
    have hwp : w = peer r l0 := by
      rw [← hew, hl0e]
      rfl
    obtain ⟨hne, hmatch⟩ :=
      @peer_ne_address r l0 (hwl l0 hl0mem2) (hnl l0 hl0mem2)
    have hgl2 : getlink (integR3 r) w = getlink r w := rfl
    rw [hgl2]
    unfold getlink
    rw [if_neg (fun hcon => hne (hwp.symm.trans hcon.symm))]
    apply find_some_of_mem _ _ l0 hl0mem2
    rcases hmatch with h | h
    · have h2 : l0.end2 = w := by rw [h, ← hwp]
      simp [h2]
    · have h2 : l0.end1 = w := by rw [h, ← hwp]
      simp [h2]

end LS

end NetSim

namespace NetSim

namespace DV

/-- The routing table invariant exactly as the specification states it: a
    destination has a usable routes entry if and only if its spcost entry
    is present and strictly below INFINITY. -/
def claimInv (r : DVRouter) : Prop :=
  ∀ d, (∃ e, alookup d r.routes = some e ∧ e ≠ RouteEntry.null) ↔
       (∃ q, alookup d r.spcost = some q ∧ q < INFINITY)

theorem wf_claimInv (r : DVRouter) (hw : wf r) : claimInv r := by
  intro d
  obtain ⟨-, -, hbound, hiff⟩ := hw
  constructor
  · intro h
    obtain ⟨q, hq⟩ := Option.isSome_iff_exists.mp ((hiff d).mp h)
    exact ⟨q, hq, hbound d q hq⟩
  · rintro ⟨q, hq, -⟩
    exact (hiff d).mpr (by rw [hq]; rfl)

theorem integrate_lookup_self (r : DVRouter) (link : Link)
    (adv : List (Addr × Cost)) :
    alookup r.address ((integrate r link adv).1).routes =
      alookup r.address r.routes ∧
    alookup r.address ((integrate r link adv).1).spcost =
      alookup r.address r.spcost := by
  have hfil : integrate r link adv =
      integrate r link (adv.filter (fun e => !(e.1 == r.address))) := by
    unfold integrate
    exact integrate_foldl_filter link r.address adv (r, false) rfl
  have hne : ∀ e ∈ adv.filter (fun e => !(e.1 == r.address)), e.1 ≠ r.address := by
    intro e he
    have := List.of_mem_filter he
    simpa using this
  rw [hfil]
  exact integrate_foldl_lookup_ne link _ hne (r, false)

/-- After DVRouter.integrate, every destination either kept both entries
    unchanged, had both removed, or holds the processed link with a cost
    strictly below INFINITY. -/
theorem integrate_outcome (r : DVRouter) (link : Link) (adv : List (Addr × Cost))
    (hw : wf r) (hnod : NodupKeys adv) (d : Addr) :
    (alookup d ((integrate r link adv).1).routes = alookup d r.routes ∧
     alookup d ((integrate r link adv).1).spcost = alookup d r.spcost) ∨
    (alookup d ((integrate r link adv).1).routes = none ∧
     alookup d ((integrate r link adv).1).spcost = none) ∨
    (∃ q, q < INFINITY ∧
      alookup d ((integrate r link adv).1).routes = some (RouteEntry.lnk link) ∧
      alookup d ((integrate r link adv).1).spcost = some q) := by
  obtain ⟨hnr, hns, hbound, hiff⟩ := hw
  by_cases hd0 : d = r.address
  · subst hd0
    exact Or.inl (integrate_lookup_self r link adv)
  · by_cases hdk : ∃ c, (d, c) ∈ adv
    · obtain ⟨c, hcmem⟩ := hdk
      have hchar := integrate_lookup_char r link adv d c hnod hcmem hd0 hnr hns
      by_cases hroute : alookup d r.routes = some (RouteEntry.lnk link)
      · by_cases heq : newCostOf link.cost c = (alookup d r.spcost).getD INFINITY
        · exact Or.inl ((hchar.1 hroute).2 heq)
        · by_cases hinf : newCostOf link.cost c = INFINITY
          · exact Or.inr (Or.inl (((hchar.1 hroute).1 heq).1 hinf))
          · exact Or.inr (Or.inr ⟨newCostOf link.cost c,
              lt_of_le_of_ne (newCostOf_le _ _) hinf,
              ((hchar.1 hroute).1 heq).2 hinf⟩)
      · by_cases hlt : newCostOf link.cost c < (alookup d r.spcost).getD INFINITY
        · refine Or.inr (Or.inr ⟨newCostOf link.cost c, ?_, (hchar.2 hroute).1 hlt⟩)
          rcases hsc : alookup d r.spcost with _ | q0
          · rw [hsc] at hlt
            exact hlt
          · rw [hsc] at hlt
            exact lt_trans hlt (hbound d q0 hsc)
        · exact Or.inl ((hchar.2 hroute).2 hlt)
    · have hne : ∀ e ∈ adv, e.1 ≠ d := by
        intro e he hcon
        exact hdk ⟨e.2, by rw [← hcon]; exact he⟩
      exact Or.inl (integrate_foldl_lookup_ne link adv hne (r, false))

theorem integrate_wf (r : DVRouter) (link : Link) (adv : List (Addr × Cost))
    (hw : wf r) (hnod : NodupKeys adv) : wf ((integrate r link adv).1) := by
  have hnodup := integrate_foldl_nodup link adv (r, false) hw.1 hw.2.1
  refine ⟨hnodup.1, hnodup.2, ?_, ?_⟩
  · intro d q hq
    rcases integrate_outcome r link adv hw hnod d with h | h | ⟨q2, hq2, hr2, hs2⟩
    · rw [h.2] at hq
      exact hw.2.2.1 d q hq
    · rw [h.2] at hq
      cases hq
    · rw [hs2] at hq
      injection hq with hq3
      rw [← hq3]
      exact hq2
  · intro d
    rcases integrate_outcome r link adv hw hnod d with h | h | ⟨q2, hq2, hr2, hs2⟩
    · rw [h.1, h.2]
      exact hw.2.2.2 d
    · rw [h.1, h.2]
      constructor
      · rintro ⟨e, he, -⟩
        cases he
      · intro hcon
        simp at hcon
    · rw [hr2, hs2]
      constructor
      · intro _
        rfl
      · intro _
        exact ⟨RouteEntry.lnk link, rfl, by intro h; cases h⟩

/-- The body of the deletion loop of Router.clear_routes. -/
def eraseStep (r2 : DVRouter) (dest : Addr) : DVRouter :=
  { r2 with routes := aerase dest r2.routes, spcost := aerase dest r2.spcost }

theorem eraseFold_spec (ks : List Addr) :
    ∀ r : DVRouter, NodupKeys r.routes → NodupKeys r.spcost →
      NodupKeys (ks.foldl eraseStep r).routes ∧
      NodupKeys (ks.foldl eraseStep r).spcost ∧
      ∀ d, (d ∈ ks → alookup d (ks.foldl eraseStep r).routes = none ∧
                     alookup d (ks.foldl eraseStep r).spcost = none) ∧
           (d ∉ ks → alookup d (ks.foldl eraseStep r).routes = alookup d r.routes ∧
                     alookup d (ks.foldl eraseStep r).spcost = alookup d r.spcost) := by
  induction ks with
  | nil =>
      intro r hnr hns
      refine ⟨hnr, hns, ?_⟩
      intro d
      exact ⟨fun h => absurd h (List.not_mem_nil d), fun _ => ⟨rfl, rfl⟩⟩
  | cons k rest ih =>
      intro r hnr hns
      have hstep : NodupKeys (eraseStep r k).routes ∧ NodupKeys (eraseStep r k).spcost :=
        ⟨nodupKeys_aerase hnr, nodupKeys_aerase hns⟩
      obtain ⟨hpr, hps, hlook⟩ := ih (eraseStep r k) hstep.1 hstep.2
      refine ⟨hpr, hps, ?_⟩
      intro d
      constructor
      · intro hd
        rcases List.mem_cons.mp hd with hd | hd
        · subst hd
          by_cases hdr : d ∈ rest
          · exact (hlook d).1 hdr
          · obtain ⟨h1, h2⟩ := (hlook d).2 hdr
            rw [List.foldl_cons] at *
            refine ⟨?_, ?_⟩
            · rw [h1]
              exact alookup_aerase_self hnr
            · rw [h2]
              exact alookup_aerase_self hns
        · exact (hlook d).1 hd
      · intro hd
        have hdk : d ≠ k := fun h => hd (h ▸ List.mem_cons_self _ _)
        have hdr : d ∉ rest := fun h => hd (List.mem_cons_of_mem _ h)
        obtain ⟨h1, h2⟩ := (hlook d).2 hdr
        rw [List.foldl_cons]
        refine ⟨?_, ?_⟩
        · rw [h1]
          exact alookup_aerase_ne _ hdk
        · rw [h2]
          exact alookup_aerase_ne _ hdk

theorem clear_routes_wf (r : DVRouter) (link : Link) (hw : wf r) :
    wf (clear_routes r link) := by
  have hfold : clear_routes r link =
      ((r.routes.filter (fun e => e.2 = RouteEntry.lnk link)).map Prod.fst).foldl
        eraseStep r := rfl
  obtain ⟨hnr, hns, hbound, hiff⟩ := hw
  obtain ⟨hpr, hps, hlook⟩ :=
    eraseFold_spec ((r.routes.filter (fun e => e.2 = RouteEntry.lnk link)).map
      Prod.fst) r hnr hns
  rw [hfold]
  refine ⟨hpr, hps, ?_, ?_⟩
  · intro d q hq
    by_cases hd : d ∈ (r.routes.filter
        (fun e => e.2 = RouteEntry.lnk link)).map Prod.fst
    · rw [((hlook d).1 hd).2] at hq
      cases hq
    · rw [((hlook d).2 hd).2] at hq
      exact hbound d q hq
  · intro d
    by_cases hd : d ∈ (r.routes.filter
        (fun e => e.2 = RouteEntry.lnk link)).map Prod.fst
    · obtain ⟨h1, h2⟩ := (hlook d).1 hd
      rw [h1, h2]
      constructor
      · rintro ⟨e, he, -⟩
        cases he
      · intro hcon
        simp at hcon
    · obtain ⟨h1, h2⟩ := (hlook d).2 hd
      rw [h1, h2]
      exact hiff d

end DV

namespace LS

/-- The routing table invariant for the link-state router: a destination
    has a usable routes entry (not the stored None) if and only if its
    spcost entry is present and strictly below INFINITY. -/
def claimInv (r : LSRouter) : Prop :=
  ∀ d, (∃ e, alookup d r.routes = some e ∧ e ≠ RouteEntry.null) ↔
       (∃ q, alookup d r.spcost = some q ∧ q < INFINITY)

theorem process_advertisement_routes_spcost (r : LSRouter) (p : LSPacket)
    (res : LSRouter × List (Link × LSPacket))
    (h : process_advertisement r p = some res) :
    res.1.routes = r.routes ∧ res.1.spcost = r.spcost := by
  unfold process_advertisement at h
  by_cases hseq : p.seqnum > savedSeq r p.source
  · rw [if_pos hseq] at h
    rcases hn : p.neighbors with _ | nbrs
    · rw [hn] at h
      cases h
    · rw [hn] at h
      injection h with h2
      rw [← h2]
      exact ⟨rfl, rfl⟩
  · rw [if_neg hseq] at h
    injection h with h2
    rw [← h2]
    exact ⟨rfl, rfl⟩

end LS

end NetSim

namespace NetSim

/-- C5: after any protocol operation of either router (distance-vector
    integrate, clear_routes on link failure, link-state advertisement
    processing, link-state periodic recomputation) the maps satisfy the
    invariant: routes holds a usable entry for a destination (the Self
    sentinel or a next hop link, not the link-state None placeholder) if
    and only if spcost holds an entry strictly below the protocols
    INFINITY; in particular no destination has a usable routing table
    entry whose cost is at INFINITY.  The distance-vector parts assume a
    wellformed incoming state (as produced by initialization and preserved
    here) and distinct advertisement keys; the link-state part assumes
    nonnegative stored costs and wellformed links. -/
theorem routing_table_invariant :
    (∀ (r : DV.DVRouter) (link : Link) (adv : List (Addr × Cost)),
       DV.wf r → NodupKeys adv →
       DV.wf ((DV.integrate r link adv).1) ∧
       DV.claimInv ((DV.integrate r link adv).1)) ∧
    (∀ (r : DV.DVRouter) (link : Link), DV.wf r →
       DV.wf (DV.clear_routes r link) ∧ DV.claimInv (DV.clear_routes r link)) ∧
    (∀ (r : LS.LSRouter) (p : LS.LSPacket)
       (res : LS.LSRouter × List (Link × LS.LSPacket)),
       LS.process_advertisement r p = some res →
       res.1.routes = r.routes ∧ res.1.spcost = r.spcost) ∧
    (∀ r : LS.LSRouter,
       (∀ s ∈ r.LSA, ∀ e ∈ s.2.2, 0 ≤ e.2) →
       (∀ l ∈ r.links, 0 ≤ l.cost) →
       (∀ l ∈ r.links, l.end1 = r.address ∨ l.end2 = r.address) →
       (∀ l ∈ r.links, l.end1 ≠ l.end2) →
       LS.claimInv (LS.integrate r)) := by
  refine ⟨?_, ?_, ?_, ?_⟩
  · intro r link adv hw hnod
    have hwf := DV.integrate_wf r link adv hw hnod
    exact ⟨hwf, DV.wf_claimInv _ hwf⟩
  · intro r link hw
    have hwf := DV.clear_routes_wf r link hw
    exact ⟨hwf, DV.wf_claimInv _ hwf⟩
  · exact LS.process_advertisement_routes_spcost
  · intro r hc1 hc2 hwl hnl
    exact LS.ls_integrate_claimInv r hc1 hc2 hwl hnl

/-- A concrete link-state router with one wellformed link and one stored
    LSA, used by the witness. -/
def lsW : LS.LSRouter :=
  { address := 0,
    links := [{ end1 := 0, end2 := 1, q12 := [], q21 := [], cost := 1,
                broken := false }],
    routes := [(0, RouteEntry.selfR)], spcost := [(0, 0)],
    LSA := [(1, (1, [(0, 1)]))], LSA_seqnum := 2 }

/-- Witness for routing_table_invariant at concrete inputs. -/
theorem routing_table_invariant_witness :
    DV.claimInv ((DV.integrate (DV.fresh 0) DV.linkW [(1, 3)]).1) ∧
    LS.claimInv (LS.integrate lsW) :=
  ⟨(routing_table_invariant.1 (DV.fresh 0) DV.linkW [(1, 3)] (DV.wf_fresh 0)
      (by simp [NodupKeys])).2,
   routing_table_invariant.2.2.2 lsW (by decide) (by decide) (by decide)
     (by decide)⟩

end NetSim
